import Mathlib

/-!
Verification of the freecad.trails workbench sources against their
natural-language specification.

Shallow embedding conventions:
* Host floating-point scalars (stations, lengths, colors, coordinates) are
  modelled as exact rationals `ℚ`.
* `FreeCAD.Vector` is modelled by `Vec3` with the methods the sources call
  (`add`, `multiply`, `negative`); `add`/`negative` return fresh vectors and
  `multiply` is applied to a copy wherever the source copies first.
* Python `None` passes through `Option`; Python truthiness of optional
  integers (`if not curve_hash`) is made explicit.
* Fallible host interactions (missing document object, name collision on
  `addObject`) are modelled with `Option`-valued steps.
-/

/-- Rational 3-vector standing in for `FreeCAD.Vector`. -/
structure Vec3 where
  x : ℚ
  y : ℚ
  z : ℚ
deriving Repr, DecidableEq

/-- `Vector.add` returns the componentwise sum as a fresh vector. -/
def Vec3.add (a b : Vec3) : Vec3 := ⟨a.x + b.x, a.y + b.y, a.z + b.z⟩

/-- `Vector.multiply` scales every component by a scalar. -/
def Vec3.multiply (a : Vec3) (s : ℚ) : Vec3 := ⟨a.x * s, a.y * s, a.z * s⟩

/-- `Vector.negative` returns the componentwise negation. -/
def Vec3.negative (a : Vec3) : Vec3 := ⟨-a.x, -a.y, -a.z⟩

/-- Assignment `point.z = v` on a copied point list element. -/
def Vec3.withZ (a : Vec3) (zv : ℚ) : Vec3 := ⟨a.x, a.y, zv⟩

namespace AlignmentSrc

/-- One element of the alignment model's `geometry` list
(`design/alignment/alignment.py`): a dict carrying at least
`Type`, `Hash`, `StartStation`, `Length`, `Center`, `Start`, `End`, `PI`. -/
structure GeoElem where
  etype : String
  hash : Int
  startStation : ℚ
  glength : ℚ
  center : Vec3
  startPt : Vec3
  endPt : Vec3
  piPt : Vec3
deriving Repr, DecidableEq

/-- Typed view of `self.model.data`: the `meta` dict entries the sources read
plus the `geometry` list. -/
structure AlignmentData where
  metaStartStation : ℚ
  metaLength : ℚ
  geometry : List GeoElem
deriving Repr, DecidableEq

/-- Value returned by `Alignment.get_geometry`: the whole geometry list, a
single geometry dict, or Python `None`. -/
inductive GeomResult where
  | all (geo : List GeoElem)
  | one (geo : GeoElem)
  | noneFound
deriving Repr, DecidableEq

/-- Python truthiness of the optional integer `curve_hash`
(`None` and `0` are falsy). -/
def pyTruthyIntOpt : Option Int → Bool
  | Option.none => false
  | Option.some n => n != 0

/-- The lookup loop of `Alignment.get_geometry`
(`for _geo in ...: if _geo['Hash'] == curve_hash: return _geo`). -/
def findFirstGeo : List GeoElem → Int → Option GeoElem
  | [], _ => Option.none
  | g :: rest, h => if g.hash = h then Option.some g else findFirstGeo rest h

/-- `Alignment.get_geometry` (alignment.py lines 327-341). -/
def get_geometry (data : AlignmentData) (curve_hash : Option Int) : GeomResult :=
  if pyTruthyIntOpt curve_hash = false then GeomResult.all data.geometry
  else
    match curve_hash with
    | Option.none => GeomResult.noneFound
    | Option.some h =>
      match findFirstGeo data.geometry h with
      | Option.some g => GeomResult.one g
      | Option.none => GeomResult.noneFound

/-- State of the host-managed properties of the alignment document object
that `Alignment.execute` touches or reads. -/
structure AlignObjState where
  points : List Vec3
  placementBase : Vec3
  method : String
  segValue : ℚ
deriving Repr, DecidableEq

/-- `Alignment.execute` (alignment.py lines 430-451).  The missing
`AlignmentModel.discretize_geometry` is passed as a function parameter with
the call signature of the source (`[0.0]`, `Method`, `Seg_Value`).  The
`no_execute` flag models `hasattr(self, 'no_execute')`; a fresh
`App.Placement()` has zero base. -/
def Alignment.execute (no_execute : Bool)
    (discretize_geometry : List ℚ → String → ℚ → List Vec3)
    (obj : AlignObjState) : AlignObjState :=
  if no_execute then obj
  else
    let points := discretize_geometry [0] obj.method obj.segValue
    if points = [] then obj
    else { obj with points := points, placementBase := ⟨0, 0, 0⟩ }

end AlignmentSrc

namespace PointGroupSrc

/-- Host document object as the point-group sources see it: identity,
`Label`, the `Points` data property, the attached proxy classes, and the
view style properties set by `ViewProviderPointGroup`. -/
structure PGObj where
  typeId : String
  name : String
  label : String
  points : List Vec3
  proxyClass : Option String
  viewProxyClass : Option String
  pointColor : ℚ × ℚ × ℚ
  pointSize : ℚ
deriving Repr, DecidableEq

/-- The active document as a list of objects. -/
structure PGDoc where
  objs : List PGObj
deriving Repr, DecidableEq

/-- `FreeCAD.ActiveDocument.getObject(name)`: first object with that
internal name, else `None`. -/
def getObject (doc : PGDoc) (nm : String) : Option PGObj :=
  doc.objs.find? (fun o => o.name == nm)

/-- Fields of a freshly added document object (the host initialises `Label`
to the internal name). -/
def newObject (typeId nm : String) : PGObj :=
  ⟨typeId, nm, nm, [], Option.none, Option.none, (0, 0, 0), 0⟩

/-- `PointGroup.__init__` (point_group.py): adds the `Points` property
initialised to `()` and registers itself as proxy. -/
def PointGroup_init (obj : PGObj) : PGObj :=
  { obj with points := [], proxyClass := Option.some "PointGroup" }

/-- `ViewProviderPointGroup.__init__` (point_group.py): random point color,
point size constrained to 3.0, registers itself as view proxy.  The host
`random.random()` triple is passed in as `rgb`. -/
def ViewProviderPointGroup_init (rgb : ℚ × ℚ × ℚ) (obj : PGObj) : PGObj :=
  { obj with pointColor := rgb, pointSize := 3,
             viewProxyClass := Option.some "ViewProviderPointGroup" }

/-- `point_group.create(points, name)` (point_group.py lines 35-40).  The
successive property mutations on the freshly added object are modelled by
updating it before it is appended to the document; the created object is
also returned so the theorems can speak about it (the Python function
returns `None`). -/
def point_group_create (doc : PGDoc) (points : List Vec3) (name : String)
    (rgb : ℚ × ℚ × ℚ) : PGDoc × PGObj :=
  let obj0 := newObject "App::FeaturePython" name
  let obj1 := { obj0 with label := name }
  let obj2 := PointGroup_init obj1
  let obj3 := { obj2 with points := points }
  let obj4 := ViewProviderPointGroup_init rgb obj3
  (⟨doc.objs ++ [obj4]⟩, obj4)

/-- `point_groups.create()` (point_groups.py lines 46-56).  `get` only calls
it when no object named `PointGroups` exists, so the requested internal name
is granted as-is. -/
def point_groups_create (doc : PGDoc) : PGDoc × PGObj :=
  let obj0 := newObject "App::DocumentObjectGroupPython" "PointGroups"
  let obj1 := { obj0 with label := "Point Groups",
                          proxyClass := Option.some "PointGroups" }
  let obj2 := { obj1 with viewProxyClass := Option.some "ViewProviderPointGroups" }
  (⟨doc.objs ++ [obj2]⟩, obj2)

/-- `point_groups.get()` (point_groups.py lines 32-44). -/
def point_groups_get (doc : PGDoc) : PGDoc × PGObj :=
  match getObject doc "PointGroups" with
  | Option.some o => (doc, o)
  | Option.none => point_groups_create doc

/-- Number of document objects whose internal name is `PointGroups`. -/
def pgCount (doc : PGDoc) : Nat :=
  (doc.objs.filter (fun o => o.name == "PointGroups")).length

end PointGroupSrc

namespace RepoClasses

/-- Constructor facts of one class defined in the repository, read off the
source text: the `__init__` parameters after `self`, whether the body
mutates attributes or properties of a host-managed object received as a
parameter, and whether the class registers itself as a host proxy
(`obj.Proxy = self` / `vobj.Proxy = self`). -/
structure RepoClass where
  cname : String
  file : String
  ctorParams : List String
  mutatesHostArg : Bool
  registersProxy : Bool
deriving Repr, DecidableEq

/-- Whether a constructor parameter is a host-managed object: the document
object / view object handed over by the host (`obj` or `vobj`). -/
def isHostObjectParam (p : String) : Bool :=
  p == "obj" || p == "vobj"

/-- The class takes a host-managed object and mutates host-managed
properties on it. -/
def takesAndMutatesHostObject (c : RepoClass) : Bool :=
  c.ctorParams.any isHostObjectParam && c.mutatesHostArg

/-- Every class defined across the six source files, with its constructor
parameter list (after `self`) transcribed from the source. -/
def repoClasses : List RepoClass :=
  [⟨"Alignment", "design/alignment/alignment.py",
    ["obj", "label"], true, true⟩,
   ⟨"_ViewProviderHorizontalAlignment", "design/alignment/alignment.py",
    ["obj"], true, true⟩,
   ⟨"Marker", "project/trackers2/core/marker.py",
    ["name", "point"], false, false⟩,
   ⟨"DraftAlignmentCmd", "project/commands/draft_alignment_cmd.py",
    [], false, false⟩,
   ⟨"CreateGuideLines", "geomatics/section/CreateGuideLines.py",
    [], false, false⟩,
   ⟨"PointGroup", "geomatics/point/point_group.py",
    ["obj"], true, true⟩,
   ⟨"ViewProviderPointGroup", "geomatics/point/point_group.py",
    ["obj"], true, true⟩,
   ⟨"PointGroups", "geomatics/point/point_groups.py",
    ["obj"], true, true⟩,
   ⟨"ViewProviderPointGroups", "geomatics/point/point_groups.py",
    ["vobj"], true, true⟩]

end RepoClasses

namespace GuideLinesSrc

open AlignmentSrc

/-- Python `round` to the nearest integer, ties to even, on the exact
rationals standing in for host floats. -/
def pyRound (q : ℚ) : ℤ :=
  let f := ⌊q⌋
  let frac := q - f
  if frac < 1 / 2 then f
  else if 1 / 2 < frac then f + 1
  else if f % 2 = 0 then f else f + 1

/-- Python `round(x, 3)`. -/
def pyRound3 (q : ℚ) : ℚ := (pyRound (q * 1000) : ℚ) / 1000

/-- Python `range(a, b)` over integers. -/
def pyRange (a b : ℤ) : List ℤ :=
  (List.range (b - a).toNat).map (fun i => a + (i : ℤ))

/-- End station shown by `getAlignmentInfos`:
`Start + Length/1000` (CreateGuideLines.py lines 121-123). -/
def endStationOf (data : AlignmentData) : ℚ :=
  data.metaStartStation + data.metaLength / 1000

/-- Stations contributed by one geometry element in the candidate loop of
`CreateGuideLines.CreateGuideLines` (lines 218-246): the element's start
station when nonzero and the horizontal-geometry-points box is checked,
then the whole-number stations of the element's range that land exactly on
the tangent (lines) or curve/spiral increment. -/
def stationsOfGeo (horGeoPoints : Bool) (tangentIncrement curveSpiralIncrement : ℤ)
    (geo : GeoElem) : List ℚ :=
  let startStation := geo.startStation
  let endStation := geo.startStation + geo.glength / 1000
  let head : List ℚ :=
    if startStation ≠ 0 then
      (if horGeoPoints then [startStation] else [])
    else []
  let ivals : List ℤ :=
    if geo.etype = "Line" then
      (pyRange (pyRound startStation) (pyRound endStation)).filter
        (fun i => i % tangentIncrement == 0)
    else if geo.etype = "Curve" ∨ geo.etype = "Spiral" then
      (pyRange (pyRound startStation) (pyRound endStation)).filter
        (fun i => i % curveSpiralIncrement == 0)
    else []
  head ++ ivals.map (fun i => (i : ℚ))

/-- The full candidate station list: the per-element stations in geometry
order followed by the end station rounded to three decimals (line 249). -/
def stationCandidates (horGeoPoints : Bool) (ti csi : ℤ)
    (data : AlignmentData) : List ℚ :=
  (data.geometry.flatMap (stationsOfGeo horGeoPoints ti csi))
    ++ [pyRound3 (endStationOf data)]

/-- One generated guide line: its three wire points, placement base, label
station (rounded to three decimals) and containing group. -/
structure GuideLine where
  points : List Vec3
  placementBase : Vec3
  labelStation : ℚ
  group : String
deriving Repr, DecidableEq

/-- The guide-line wire generated for one station (lines 263-274):
`(Coord, vec) = get_orthogonal(Station, "Left")`,
`LeftEnd = Coord + Vector(vec)*(int(l)*1000)`,
`RightEnd = Coord + vec.negative()*(int(r)*1000)`,
wire `[LeftEnd, Coord, RightEnd]` placed at the alignment placement base
and added to the selected group. -/
def guideLineAt (ortho : ℚ → Vec3 × Vec3) (l r : ℤ) (algPl : Vec3)
    (grp : String) (station : ℚ) : GuideLine :=
  let cv := ortho station
  let coord := cv.1
  let vec := cv.2
  let leftEnd := coord.add (vec.multiply ((l : ℚ) * 1000))
  let rightEnd := coord.add (vec.negative.multiply ((r : ℚ) * 1000))
  ⟨[leftEnd, coord, rightEnd], algPl, pyRound3 station, grp⟩

/-- `CreateGuideLines.CreateGuideLines` (lines 178-275).  Host text fields
arrive already parsed (`int(l)`, `int(r)`, the increments, and the
`float(...)` station limits); the missing `AlignmentModel.get_orthogonal`
is a function parameter; `None` for the group index or the alignment models
the early-return message paths.  The host raises `ZeroDivisionError` when
an increment is 0 and an interval loop runs, so the theorems assume nonzero
increments. -/
def CreateGuideLines_run (l r : ℤ) (firstStation lastStation : ℚ)
    (glgIndex : Option String) (ti csi : ℤ) (horGeoPoints : Bool)
    (alignment : Option AlignmentData) (ortho : ℚ → Vec3 × Vec3)
    (algPl : Vec3) : Option (List GuideLine) :=
  match glgIndex with
  | Option.none => Option.none
  | Option.some grp =>
    match alignment with
    | Option.none => Option.none
    | Option.some data =>
      let candidates := stationCandidates horGeoPoints ti csi data
      let result := candidates.filter
        (fun s => decide (firstStation ≤ s) && decide (s ≤ lastStation))
      let sortedResult := List.insertionSort (· ≤ ·) result
      Option.some (sortedResult.map (guideLineAt ortho l r algPl grp))

end GuideLinesSrc

namespace PyHeapSrc

/-!
Heap model for C9 (`Alignment.get_data` / `Alignment.get_data_copy`).
Aliasing of the mutable alignment dataset cannot be expressed on the typed
view used by the other claims, so the dataset is modelled here as a graph
of mutable dicts/lists living in an addressed heap, with Python variables
holding values that are atoms or references.  `copy.deepcopy` (the Python
standard library function the source calls) is given fuel-indexed
structural-recursion semantics; on the acyclic, fuel-bounded object graphs
the theorems quantify over, omitting the memo table does not change the
copy's value or its freshness.
-/

/-- Immutable Python scalar. -/
inductive PAtom where
  | num : ℚ → PAtom
  | str : String → PAtom
deriving Repr, DecidableEq

/-- A Python value: an immutable atom or a reference to a mutable heap
object. -/
inductive PVal where
  | atom : PAtom → PVal
  | ref : Nat → PVal
deriving Repr, DecidableEq

/-- A mutable heap object: a dict (insertion-ordered fields) or a list. -/
inductive PObj where
  | dict : List (String × PVal) → PObj
  | plist : List PVal → PObj
deriving Repr, DecidableEq

/-- The heap: mutable objects addressed by position. -/
structure Heap where
  objs : List PObj
deriving Repr, DecidableEq

/-- Dereference an address. -/
def Heap.lookup (H : Heap) (a : Nat) : Option PObj := H.objs[a]?

/-- Number of allocated objects. -/
def Heap.size (H : Heap) : Nat := H.objs.length

/-- Allocate a fresh object, returning its address. -/
def Heap.alloc (H : Heap) (o : PObj) : Heap × Nat :=
  (⟨H.objs ++ [o]⟩, H.objs.length)

/-- Mutate the object stored at an address. -/
def Heap.write (H : Heap) (a : Nat) (o : PObj) : Heap := ⟨H.objs.set a o⟩

/-- The pure tree a value denotes once all references are chased. -/
inductive PTree where
  | atom : PAtom → PTree
  | dict : List (String × PTree) → PTree
  | plist : List PTree → PTree

mutual

/-- Fuel-indexed readout of the pure tree denoted by a value. -/
def pureVal : Nat → Heap → PVal → Option PTree
  | _, _, PVal.atom a => Option.some (PTree.atom a)
  | 0, _, PVal.ref _ => Option.none
  | Nat.succ n, H, PVal.ref a =>
    match H.lookup a with
    | Option.none => Option.none
    | Option.some (PObj.dict fs) =>
      match pureFields n H fs with
      | Option.none => Option.none
      | Option.some ts => Option.some (PTree.dict ts)
    | Option.some (PObj.plist xs) =>
      match pureItems n H xs with
      | Option.none => Option.none
      | Option.some ts => Option.some (PTree.plist ts)
termination_by n _ _ => (n, 0)

/-- Pure trees of a dict's fields. -/
def pureFields : Nat → Heap → List (String × PVal) → Option (List (String × PTree))
  | _, _, [] => Option.some []
  | n, H, (k, v) :: rest =>
    match pureVal n H v, pureFields n H rest with
    | Option.some t, Option.some ts => Option.some ((k, t) :: ts)
    | _, _ => Option.none
termination_by n _ fs => (n, fs.length + 1)

/-- Pure trees of a list's items. -/
def pureItems : Nat → Heap → List PVal → Option (List PTree)
  | _, _, [] => Option.some []
  | n, H, v :: rest =>
    match pureVal n H v, pureItems n H rest with
    | Option.some t, Option.some ts => Option.some (t :: ts)
    | _, _ => Option.none
termination_by n _ xs => (n, xs.length + 1)

end

mutual

/-- Fuel-indexed `copy.deepcopy`: atoms are returned as-is, references are
chased and every reachable mutable object is re-allocated fresh. -/
def deepcopyVal : Nat → Heap → PVal → Option (Heap × PVal)
  | _, H, PVal.atom a => Option.some (H, PVal.atom a)
  | 0, _, PVal.ref _ => Option.none
  | Nat.succ n, H, PVal.ref a =>
    match H.lookup a with
    | Option.none => Option.none
    | Option.some (PObj.dict fs) =>
      match deepcopyFields n H fs with
      | Option.none => Option.none
      | Option.some (H1, fs1) =>
        let r := H1.alloc (PObj.dict fs1)
        Option.some (r.1, PVal.ref r.2)
    | Option.some (PObj.plist xs) =>
      match deepcopyItems n H xs with
      | Option.none => Option.none
      | Option.some (H1, xs1) =>
        let r := H1.alloc (PObj.plist xs1)
        Option.some (r.1, PVal.ref r.2)
termination_by n _ _ => (n, 0)

/-- Deep copy of a dict's fields, left to right. -/
def deepcopyFields : Nat → Heap → List (String × PVal) →
    Option (Heap × List (String × PVal))
  | _, H, [] => Option.some (H, [])
  | n, H, (k, v) :: rest =>
    match deepcopyVal n H v with
    | Option.none => Option.none
    | Option.some (H1, v1) =>
      match deepcopyFields n H1 rest with
      | Option.none => Option.none
      | Option.some (H2, rest2) => Option.some (H2, (k, v1) :: rest2)
termination_by n _ fs => (n, fs.length + 1)

/-- Deep copy of a list's items, left to right. -/
def deepcopyItems : Nat → Heap → List PVal → Option (Heap × List PVal)
  | _, H, [] => Option.some (H, [])
  | n, H, v :: rest =>
    match deepcopyVal n H v with
    | Option.none => Option.none
    | Option.some (H1, v1) =>
      match deepcopyItems n H1 rest with
      | Option.none => Option.none
      | Option.some (H2, rest2) => Option.some (H2, v1 :: rest2)
termination_by n _ xs => (n, xs.length + 1)

end

/-- `Alignment.get_data` (alignment.py lines 298-303): returns
`self.model.data` itself, i.e. the very reference. -/
def get_data (model_data : PVal) : PVal := model_data

/-- `Alignment.get_data_copy` (alignment.py lines 305-310):
`deepcopy(self.model.data)`. -/
def get_data_copy (fuel : Nat) (H : Heap) (model_data : PVal) :
    Option (Heap × PVal) :=
  deepcopyVal fuel H model_data

/-- All references of a value satisfy the address predicate. -/
def valInP (p : Nat → Bool) : PVal → Bool
  | PVal.atom _ => true
  | PVal.ref a => p a

/-- All references of an object satisfy the address predicate. -/
def objInP (p : Nat → Bool) : PObj → Bool
  | PObj.dict fs => fs.all (fun kv => valInP p kv.2)
  | PObj.plist xs => xs.all (valInP p)

/-- Every object stored at an address satisfying `p` refers only to
addresses satisfying `p`. -/
def Heap.closedP (H : Heap) (p : Nat → Bool) : Prop :=
  ∀ a o, p a = true → H.lookup a = Option.some o → objInP p o = true

/-- All references in a dict field list satisfy the address predicate. -/
def fieldsInP (p : Nat → Bool) (fs : List (String × PVal)) : Bool :=
  fs.all (fun kv => valInP p kv.2)

/-- All references in an item list satisfy the address predicate. -/
def itemsInP (p : Nat → Bool) (xs : List PVal) : Bool :=
  xs.all (valInP p)

/-- A value whose references stay below `k`. -/
def valBelow (k : Nat) (v : PVal) : Bool := valInP (fun a => a < k) v

/-- Heap wellformedness: every stored reference is a live address. -/
def Heap.wf (H : Heap) : Bool := H.objs.all (objInP (fun a => a < H.size))

/-- Conclusions of the deep-copy induction for a value: the heap only grows,
stays wellformed, the copy lives entirely in the fresh region (its own
reference, and every object the fresh region stores), and it denotes the
same pure tree as the original. -/
def CopyValOk (n : Nat) (H : Heap) (v : PVal) (H' : Heap) (v' : PVal) : Prop :=
  (∃ t, H'.objs = H.objs ++ t)
  ∧ Heap.wf H' = true
  ∧ valBelow H'.size v' = true
  ∧ valInP (fun a => H.size ≤ a) v' = true
  ∧ (∀ a o, H.size ≤ a → H'.lookup a = Option.some o →
      objInP (fun b => H.size ≤ b) o = true)
  ∧ pureVal n H' v' = pureVal n H v

/-- Conclusions of the deep-copy induction for dict fields. -/
def CopyFieldsOk (n : Nat) (H : Heap) (fs : List (String × PVal))
    (H' : Heap) (fs' : List (String × PVal)) : Prop :=
  (∃ t, H'.objs = H.objs ++ t)
  ∧ Heap.wf H' = true
  ∧ fieldsInP (fun a => a < H'.size) fs' = true
  ∧ fieldsInP (fun a => H.size ≤ a) fs' = true
  ∧ (∀ a o, H.size ≤ a → H'.lookup a = Option.some o →
      objInP (fun b => H.size ≤ b) o = true)
  ∧ pureFields n H' fs' = pureFields n H fs

/-- Conclusions of the deep-copy induction for list items. -/
def CopyItemsOk (n : Nat) (H : Heap) (xs : List PVal)
    (H' : Heap) (xs' : List PVal) : Prop :=
  (∃ t, H'.objs = H.objs ++ t)
  ∧ Heap.wf H' = true
  ∧ itemsInP (fun a => a < H'.size) xs' = true
  ∧ itemsInP (fun a => H.size ≤ a) xs' = true
  ∧ (∀ a o, H.size ≤ a → H'.lookup a = Option.some o →
      objInP (fun b => H.size ≤ b) o = true)
  ∧ pureItems n H' xs' = pureItems n H xs

end PyHeapSrc

namespace DraftCmdSrc

open AlignmentSrc

/-- Character-list equality of a leading segment (`needle` led by `hay`). -/
def leadEq : List Char → List Char → Bool
  | [], _ => true
  | _ :: _, [] => false
  | a :: as, b :: bs => a == b && leadEq as bs

/-- Contiguous occurrence of `needle` somewhere in the list. -/
def hasSubList (needle : List Char) : List Char → Bool
  | [] => leadEq needle []
  | b :: bs => leadEq needle (b :: bs) || hasSubList needle bs

/-- Python `needle in hay` on strings. -/
def strHas (hay needle : String) : Bool := hasSubList needle.data hay.data

/-- Truthiness of an optional list (Python `if control_geo:`). -/
def pyTruthyListOpt {α : Type} : Option (List α) → Bool
  | Option.none => false
  | Option.some l => !l.isEmpty

/-- View-side state of one document object: the properties the command
touches (`Selectable`, `Visibility`, `LineColor`, `DrawStyle`). -/
structure VObj where
  selectable : Bool
  visibility : Bool
  lineColor : ℚ × ℚ × ℚ
  drawStyle : String
deriving Repr, DecidableEq

/-- Host defaults of a freshly created view object. -/
def VObj.fresh : VObj := ⟨true, true, (0, 0, 0), "Solid"⟩

/-- One document object: internal name, view state, whether its view object
carries a `Selectable` attribute, the wire points, and (for groups) the
member names. -/
structure DObj where
  name : String
  vobj : VObj
  hasSelectable : Bool
  points : List Vec3
  group : List String
deriving Repr, DecidableEq

/-- The active document. -/
structure Doc where
  objs : List DObj
deriving Repr, DecidableEq

/-- `App.ActiveDocument.getObject(name)`. -/
def Doc.getObject (doc : Doc) (nm : String) : Option DObj :=
  doc.objs.find? (fun o => o.name == nm)

/-- Internal names of all document objects. -/
def Doc.names (doc : Doc) : List String := doc.objs.map DObj.name

/-- Update the view state of every object with the given name. -/
def Doc.mapVObj (doc : Doc) (nm : String) (f : VObj → VObj) : Doc :=
  ⟨doc.objs.map (fun o => if o.name = nm then { o with vobj := f o.vobj } else o)⟩

/-- `App.ActiveDocument.removeObject(name)`. -/
def Doc.removeObject (doc : Doc) (nm : String) : Doc :=
  ⟨doc.objs.filter (fun o => o.name != nm)⟩

/-- `ViewObject.Selectable = b`. -/
def Doc.setSelectable (doc : Doc) (nm : String) (b : Bool) : Doc :=
  doc.mapVObj nm (fun v => { v with selectable := b })

/-- `ViewObject.Visibility = b`. -/
def Doc.setVisibility (doc : Doc) (nm : String) (b : Bool) : Doc :=
  doc.mapVObj nm (fun v => { v with visibility := b })

/-- `ViewObject.LineColor = c`. -/
def Doc.setLineColor (doc : Doc) (nm : String) (c : ℚ × ℚ × ℚ) : Doc :=
  doc.mapVObj nm (fun v => { v with lineColor := c })

/-- `ViewObject.DrawStyle = s`. -/
def Doc.setDrawStyle (doc : Doc) (nm : String) (s : String) : Doc :=
  doc.mapVObj nm (fun v => { v with drawStyle := s })

/-- Loop setting `Selectable` over a list of object names. -/
def Doc.setSelectableAll (doc : Doc) (nms : List String) (b : Bool) : Doc :=
  nms.foldl (fun d nm => d.setSelectable nm b) doc

/-- Loop setting `Visibility` over a list of object names. -/
def Doc.setVisibilityAll (doc : Doc) (nms : List String) (b : Bool) : Doc :=
  nms.foldl (fun d nm => d.setVisibility nm b) doc

/-- `group.addObject(obj)`: append the member name. -/
def Doc.groupAdd (doc : Doc) (grp member : String) : Doc :=
  ⟨doc.objs.map (fun o =>
    if o.name = grp then { o with group := o.group ++ [member] } else o)⟩

/-- Member names of a group object (empty when absent). -/
def membersOf (doc : Doc) (grp : String) : List String :=
  ((doc.getObject grp).map DObj.group).getD []

/-- `utils.make_wire(points, name)` followed by the host granting the
requested internal name.  A taken name is modelled as failure: every name
the command requests (a UUID and hash-derived control names) is fresh in an
honest host document, where the host would otherwise rename. -/
def make_wire (doc : Doc) (nm : String) (points : List Vec3) : Option Doc :=
  if doc.names.contains nm then Option.none
  else Option.some ⟨doc.objs ++ [⟨nm, VObj.fresh, true, points, []⟩]⟩

/-- `addObject('App::DocumentObjectGroup', name)`; a group's view object has
no `Selectable` attribute. -/
def addGroup (doc : Doc) (nm : String) : Option Doc :=
  if doc.names.contains nm then Option.none
  else Option.some ⟨doc.objs ++ [⟨nm, VObj.fresh, false, [], []⟩]⟩

/-- The world the event handlers act on: the document, the GUI selection
(object name with selected subelements), and the alignment proxy's model
data (read through `get_geometry`). -/
structure World where
  doc : Doc
  selection : List (String × List String)
  alignData : AlignmentData
deriving Repr, DecidableEq

/-- Python attribute state of the command object
(`DraftAlignmentCmd.__init__`, draft_alignment_cmd.py lines 49-64).  The
`DraftTool` base-class picking state (`node`, `point`, `pos`, `support`)
is host-managed and outside the model, as is `alignment_tracker`. -/
structure CmdState where
  is_activated : Bool
  temp_group : Option String
  curve_hash : Option Int
  selectable_objects : Option (List String)
  alignment : Option String
  alignment_draft : Option String
  edges : Option (List (Int × List String))
deriving Repr, DecidableEq

/-- Attribute values set by `__init__`. -/
def initCmd : CmdState :=
  ⟨false, Option.none, Option.none, Option.none, Option.none, Option.none,
   Option.none⟩

/-- The Coin events the handler reacts to.  `SoMouseButtonEvent` handling
depends on host `DraftTools` picking and is outside the model. -/
inductive SoEvent where
  | keyboard (key : String)
  | location (info : Option (String × String))
deriving Repr, DecidableEq

/-- The loop body of `select_curve_edges` (lines 169-183): skip single-edge
entries (tangents), return the first curve whose edge dict contains the
edge name together with the new selection. -/
def selectCurveGo (draftName : String) (edge_name : String) :
    List (Int × List String) → Option Int × List (String × List String)
  | [] => (Option.none, [])
  | (k, v) :: rest =>
    if v.length = 1 then selectCurveGo draftName edge_name rest
    else if v.contains edge_name then (Option.some k, [(draftName, v)])
    else selectCurveGo draftName edge_name rest

/-- `select_curve_edges(edge_name)` (lines 161-183): clears the selection,
then walks the curve-edge dict. -/
def select_curve_edges (draftName : String)
    (edges : List (Int × List String)) (edge_name : String) :
    Option Int × List (String × List String) :=
  selectCurveGo draftName edge_name edges

/-- Lines 282-286 of `action`: the hash resolved for a mouse position, and
the selection resulting from the lookup. -/
def resolve_selection (dn : String) (edges : List (Int × List String))
    (sel : List (String × List String)) (info : Option (String × String)) :
    Option Int × List (String × List String) :=
  match info with
  | Option.none => (Option.none, sel)
  | Option.some (objName, comp) =>
    if objName = dn then select_curve_edges dn edges comp
    else (Option.none, sel)

/-- `get_control_geometry` (lines 221-231).  Outer `Option` is a host
exception (no temp group object); the inner value is the Python result:
`None` for a falsy hash, else the temp-group members whose names contain
`str(curve_hash)`. -/
def get_control_geometry (w : World) (c : CmdState) :
    Option (Option (List String)) :=
  match c.curve_hash with
  | Option.none => Option.some Option.none
  | Option.some h =>
    if h = 0 then Option.some Option.none
    else
      match c.temp_group with
      | Option.none => Option.none
      | Option.some tg =>
        match w.doc.getObject tg with
        | Option.none => Option.none
        | Option.some tobj =>
          Option.some (Option.some
            (tobj.group.filter (fun nm => strHas nm (toString h))))

/-- One control wire: `make_wire`, dashed yellow unselectable style, added
to the temp group (lines 211-219). -/
def addControlWire (w : World) (tg nm : String) (pts : List Vec3) :
    Option World :=
  match make_wire w.doc nm pts with
  | Option.none => Option.none
  | Option.some d1 =>
    let d2 := d1.setDrawStyle nm "Dashed"
    let d3 := d2.setLineColor nm (4/5, 4/5, 1/10)
    let d4 := d3.setSelectable nm false
    let d5 := d4.groupAdd tg nm
    Option.some { w with doc := d5 }

/-- `show_control_geometry` (lines 185-219): re-show hidden control
geometry when present, else draw the four control wires of the current
curve (radii and tangents), named `<kind>_<hash>`. -/
def show_control_geometry (w : World) (c : CmdState) : Option World :=
  match get_control_geometry w c with
  | Option.none => Option.none
  | Option.some control_geo =>
    if pyTruthyListOpt control_geo then
      Option.some
        { w with doc := w.doc.setVisibilityAll (control_geo.getD []) true }
    else
      match get_geometry w.alignData c.curve_hash with
      | GeomResult.noneFound => Option.some w
      | GeomResult.all geo =>
        if geo = [] then Option.some w else Option.none
      | GeomResult.one curve =>
        match c.curve_hash, c.temp_group with
        | Option.some h, Option.some tg =>
          let hstr := toString h
          match addControlWire w tg ("rad_in_" ++ hstr)
              [curve.center, curve.startPt] with
          | Option.none => Option.none
          | Option.some w1 =>
            match addControlWire w1 tg ("rad_out_" ++ hstr)
                [curve.center, curve.endPt] with
            | Option.none => Option.none
            | Option.some w2 =>
              match addControlWire w2 tg ("tan_in_" ++ hstr)
                  [curve.piPt, curve.startPt] with
              | Option.none => Option.none
              | Option.some w3 =>
                addControlWire w3 tg ("tan_out_" ++ hstr)
                  [curve.piPt, curve.endPt]
        | _, _ => Option.none

/-- `hide_control_geometry` (lines 244-252). -/
def hide_control_geometry (w : World) (c : CmdState) : Option World :=
  match get_control_geometry w c with
  | Option.none => Option.none
  | Option.some Option.none => Option.none
  | Option.some (Option.some names) =>
    Option.some { w with doc := w.doc.setVisibilityAll names false }

/-- `finish` (lines 393-450): host-side tracker finalisation and dialog
closing are no-ops on the modelled state; then the alignment view is
restored, the temp group and its members are removed, the recorded
selectable flags are restored, and the command deactivates. -/
def finish (w : World) (c : CmdState) : World × CmdState :=
  let w1 :=
    match c.alignment with
    | Option.none => w
    | Option.some an =>
      { w with doc := ((w.doc.setLineColor an (0, 0, 0)).setDrawStyle an
          "Solid").setSelectable an true }
  let w2 :=
    match c.temp_group with
    | Option.none => w1
    | Option.some tg =>
      let members := membersOf w1.doc tg
      let d1 := members.foldl (fun d nm => d.removeObject nm) w1.doc
      { w1 with doc := d1.removeObject tg }
  let w3 :=
    match c.selectable_objects with
    | Option.none => w2
    | Option.some nms => { w2 with doc := w2.doc.setSelectableAll nms true }
  (w3, { c with is_activated := false })

/-- The tail of the mouse-move handler (lines 288-306) once the hash under
the cursor and the post-lookup selection are known: a truthy hash on a
different curve updates the state and shows its control geometry; a falsy
one clears the selection and, while a curve was current, hides its control
geometry and resets the state. -/
def location_resolved (w : World) (c : CmdState) (curve_hash : Option Int)
    (sel1 : List (String × List String)) : Option (World × CmdState) :=
  let w1 := { w with selection := sel1 }
  if pyTruthyIntOpt curve_hash then
    match curve_hash with
    | Option.some h =>
      if c.curve_hash ≠ Option.some h then
        let c1 := { c with curve_hash := Option.some h }
        match show_control_geometry w1 c1 with
        | Option.none => Option.none
        | Option.some w2 => Option.some (w2, c1)
      else Option.some (w1, c)
    | Option.none => Option.none
  else
    let w2 :=
      if w1.selection ≠ [] then { w1 with selection := [] } else w1
    if pyTruthyIntOpt c.curve_hash then
      match hide_control_geometry w2 c with
      | Option.none => Option.none
      | Option.some w3 =>
        Option.some (w3, { c with curve_hash := Option.none })
    else Option.some (w2, c)

/-- `action` (lines 264-308): the escape trap and the mouse-move machine.
Host exceptions (reading `.Name` of a `None` draft, `.items()` of `None`
edges) are the `Option.none` outcomes. -/
def action (w : World) (c : CmdState) (ev : SoEvent) :
    Option (World × CmdState) :=
  match ev with
  | SoEvent.keyboard key =>
    if key = "ESCAPE" then Option.some (finish w c)
    else Option.some (w, c)
  | SoEvent.location info =>
    let resolved : Option (Option Int × List (String × List String)) :=
      match info with
      | Option.none => Option.some (Option.none, w.selection)
      | Option.some (objName, comp) =>
        match c.alignment_draft with
        | Option.none => Option.none
        | Option.some dn =>
          match c.edges with
          | Option.none =>
            if objName = dn then Option.none
            else Option.some (Option.none, w.selection)
          | Option.some edges =>
            Option.some (resolve_selection dn edges w.selection
              (Option.some (objName, comp)))
    match resolved with
    | Option.none => Option.none
    | Option.some (curve_hash, sel1) => location_resolved w c curve_hash sel1

/-- `Activated` (lines 103-159): record and clear every selectable view
object, create the temp group, draft a flattened copy of the alignment wire
into it under a fresh UUID name, grey out the alignment, and cache the
curve-edge dict.  `IsActive` has already stored the selected alignment in
`c.alignment`; the host-generated UUID and the proxy's `get_edges()` result
arrive as parameters. -/
def Activated (uuidName : String) (edges : List (Int × List String))
    (w : World) (c : CmdState) : Option (World × CmdState) :=
  if c.is_activated then Option.some (w, c)
  else
    match c.alignment with
    | Option.none => Option.none
    | Option.some alName =>
      match w.doc.getObject alName with
      | Option.none => Option.none
      | Option.some alObj =>
        let recorded := (w.doc.objs.filter DObj.hasSelectable).map DObj.name
        let d1 := w.doc.setSelectableAll recorded false
        match addGroup d1 "Temp" with
        | Option.none => Option.none
        | Option.some d2 =>
          let points := alObj.points.map (fun p => p.withZ (1 / 10))
          match make_wire d2 uuidName points with
          | Option.none => Option.none
          | Option.some d3 =>
            let d4 := d3.groupAdd "Temp" uuidName
            let d5 := ((d4.setLineColor alName (1/2, 1/2, 1/2)).setDrawStyle
                alName "Dashed").setSelectable alName false
            Option.some ({ w with doc := d5 },
              { c with is_activated := true,
                       temp_group := Option.some "Temp",
                       alignment_draft := Option.some uuidName,
                       selectable_objects := Option.some recorded,
                       edges := Option.some edges })

/-- Run a list of events through `action`. -/
def steps (evs : List SoEvent) (w : World) (c : CmdState) :
    Option (World × CmdState) :=
  match evs with
  | [] => Option.some (w, c)
  | ev :: rest =>
    match action w c ev with
    | Option.none => Option.none
    | Option.some (w1, c1) => steps rest w1 c1

/-- Events between activation and the escape: mouse moves and other keys. -/
def BenignEvent : SoEvent → Prop
  | SoEvent.keyboard key => key ≠ "ESCAPE"
  | SoEvent.location _ => True

/-- Names of the view objects whose `Selectable` flag activation records
and clears (lines 119-130). -/
def recordedOf (w : World) : List String :=
  (w.doc.objs.filter DObj.hasSelectable).map DObj.name

/-- State invariant established by activation and kept through mouse moves:
the cleared-selection record and temp group are cached, the temp group and
all recorded objects are live, and no recorded object sits inside the temp
group. -/
def CmdInv (R : List String) (w : World) (c : CmdState) : Prop :=
  c.selectable_objects = Option.some R
  ∧ c.temp_group = Option.some "Temp"
  ∧ "Temp" ∈ w.doc.names
  ∧ (∀ nm ∈ R, nm ∈ w.doc.names)
  ∧ "Temp" ∉ R
  ∧ (∀ m ∈ membersOf w.doc "Temp", m ∉ R)

/-- How a mouse-move step may change the document: names only appear, and
any new temp-group member is a name the old document did not hold. -/
def DocEvolves (d d' : Doc) : Prop :=
  (∀ nm, nm ∈ d.names → nm ∈ d'.names)
  ∧ (∀ m ∈ membersOf d' "Temp", m ∈ membersOf d "Temp" ∨ m ∉ d.names)

/-- A one-alignment document used to exercise the drafting command. -/
def demoWorld : World :=
  ⟨⟨[⟨"A", VObj.fresh, true, [], []⟩]⟩, [], ⟨0, 0, []⟩⟩

/-- The command state after `IsActive` stored the selected alignment. -/
def demoCmd : CmdState := { initCmd with alignment := Option.some "A" }

/-- The world `Activated` produces from `demoWorld`. -/
def demoWorld1 : World :=
  ⟨⟨[⟨"A", ⟨false, true, (1/2, 1/2, 1/2), "Dashed"⟩, true, [], []⟩,
     ⟨"Temp", VObj.fresh, false, [], ["U1"]⟩,
     ⟨"U1", VObj.fresh, true, [], []⟩]⟩, [], ⟨0, 0, []⟩⟩

/-- The command state `Activated` produces from `demoCmd`. -/
def demoCmd1 : CmdState :=
  ⟨true, Option.some "Temp", Option.none, Option.some ["A"],
   Option.some "A", Option.some "U1", Option.some []⟩

/-- An empty document used to drive the handler over a curve of hash `0`. -/
def cexWorld : World := ⟨⟨[]⟩, [], ⟨0, 0, []⟩⟩

/-- Activated command over `cexWorld` whose cached curve-edge dict holds a
two-edge curve with hash `0`. -/
def cexCmd : CmdState :=
  ⟨true, Option.some "Temp", Option.none, Option.some [],
   Option.some "A", Option.some "D",
   Option.some [(0, ["Edge1", "Edge2"])]⟩

/-- Drafting world holding one hidden control wire of the curve with
hash `7` inside the temp group. -/
def c6World : World :=
  ⟨⟨[⟨"Temp", VObj.fresh, false, [], ["rad_in_7"]⟩,
     ⟨"rad_in_7", ⟨false, false, (0, 0, 0), "Dashed"⟩, true, [], []⟩]⟩,
   [], ⟨0, 0, []⟩⟩

/-- Command state over `c6World`: no current curve, a two-edge curve of
hash `7` cached in `edges`. -/
def c6Cmd : CmdState :=
  ⟨true, Option.some "Temp", Option.none, Option.some [],
   Option.some "A", Option.some "D",
   Option.some [(7, ["Edge1", "Edge2"])]⟩

/-- `c6World` after the mouse move onto curve `7`: the control wire is
re-shown. -/
def c6World1 : World :=
  ⟨⟨[⟨"Temp", VObj.fresh, false, [], ["rad_in_7"]⟩,
     ⟨"rad_in_7", ⟨false, true, (0, 0, 0), "Dashed"⟩, true, [], []⟩]⟩,
   [("D", ["Edge1", "Edge2"])], ⟨0, 0, []⟩⟩

/-- `c6Cmd` after the mouse move onto curve `7`. -/
def c6Cmd1 : CmdState :=
  ⟨true, Option.some "Temp", Option.some 7, Option.some [],
   Option.some "A", Option.some "D",
   Option.some [(7, ["Edge1", "Edge2"])]⟩

end DraftCmdSrc

/-! ## Theorems -/

namespace AlignmentSrc

/-- The lookup loop returns `None` exactly when no geometry element carries
the requested hash. -/
theorem findFirstGeo_eq_none (l : List GeoElem) (h : Int) :
    findFirstGeo l h = Option.none ↔ ∀ g ∈ l, g.hash ≠ h := by
  induction l with
  | nil => simp [findFirstGeo]
  | cons g rest ih =>
    by_cases hg : g.hash = h
    · simp [findFirstGeo, hg]
    · simp [findFirstGeo, hg, ih]

/-- The lookup loop returns exactly the first element carrying the requested
hash. -/
theorem findFirstGeo_eq_some (l : List GeoElem) (h : Int) (g : GeoElem) :
    findFirstGeo l h = Option.some g ↔
      ∃ i, ∃ hi : i < l.length, l.get ⟨i, hi⟩ = g ∧ g.hash = h ∧
        ∀ j, ∀ hj : j < l.length, j < i → (l.get ⟨j, hj⟩).hash ≠ h := by
  induction l with
  | nil => simp [findFirstGeo]
  | cons a rest ih =>
    by_cases ha : a.hash = h
    · simp only [findFirstGeo, if_pos ha, Option.some.injEq]
      constructor
      · rintro rfl
        exact ⟨0, Nat.succ_pos _, rfl, ha,
          fun j hj hlt => absurd hlt (Nat.not_lt_zero j)⟩
      · rintro ⟨i, hi, hget, hgh, hfirst⟩
        cases i with
        | zero => exact hget
        | succ k => exact absurd ha (hfirst 0 (Nat.succ_pos _) (Nat.succ_pos k))
    · rw [findFirstGeo, if_neg ha, ih]
      constructor
      · rintro ⟨i, hi, hget, hgh, hfirst⟩
        refine ⟨i + 1, Nat.succ_lt_succ hi, hget, hgh, ?_⟩
        intro j hj hlt
        cases j with
        | zero => simpa using ha
        | succ k =>
          exact hfirst k (Nat.lt_of_succ_lt_succ hj) (Nat.lt_of_succ_lt_succ hlt)
      · rintro ⟨i, hi, hget, hgh, hfirst⟩
        cases i with
        | zero =>
          have hag : a = g := hget
          exact absurd (hag ▸ hgh) ha
        | succ k =>
          refine ⟨k, Nat.lt_of_succ_lt_succ hi, hget, hgh, ?_⟩
          intro j hj hlt
          exact hfirst (j + 1) (Nat.succ_lt_succ hj) (Nat.succ_lt_succ hlt)

/-- C1: `Alignment.get_geometry` called with a truthy (nonzero) hash returns
the first geometry element whose `Hash` field equals it and returns `None`
when no element matches; called with a falsy hash (`None`, and likewise `0`)
it returns the entire geometry list. -/
theorem C1_get_geometry_hash_lookup (data : AlignmentData) (h : Int)
    (hh : h ≠ 0) :
    (∀ g, get_geometry data (Option.some h) = GeomResult.one g ↔
        ∃ i, ∃ hi : i < data.geometry.length,
          data.geometry.get ⟨i, hi⟩ = g ∧ g.hash = h ∧
          ∀ j, ∀ hj : j < data.geometry.length, j < i →
            (data.geometry.get ⟨j, hj⟩).hash ≠ h)
    ∧ ((∀ g ∈ data.geometry, g.hash ≠ h) →
        get_geometry data (Option.some h) = GeomResult.noneFound)
    ∧ get_geometry data Option.none = GeomResult.all data.geometry
    ∧ get_geometry data (Option.some 0) = GeomResult.all data.geometry := by
  have htruthy : pyTruthyIntOpt (Option.some h) = true := by
    simp [pyTruthyIntOpt, hh]
  refine ⟨?_, ?_, ?_, ?_⟩
  · intro g
    constructor
    · intro hres
      have hfs : findFirstGeo data.geometry h = Option.some g := by
        rcases hf : findFirstGeo data.geometry h with _ | g'
        · simp [get_geometry, htruthy, hf] at hres
        · simp only [get_geometry, htruthy, if_neg, hf] at hres
          simp at hres
          rw [hres]
      exact (findFirstGeo_eq_some _ _ _).1 hfs
    · intro hex
      have hf := (findFirstGeo_eq_some data.geometry h g).2 hex
      simp [get_geometry, htruthy, hf]
  · intro hall
    have hf := (findFirstGeo_eq_none data.geometry h).2 hall
    simp [get_geometry, htruthy, hf]
  · simp [get_geometry, pyTruthyIntOpt]
  · simp [get_geometry, pyTruthyIntOpt]

/-- Witness for C1 at a concrete three-element geometry list and hash 7. -/
theorem C1_get_geometry_hash_lookup_witness :
    ((7 : Int) ≠ 0)
    ∧ (get_geometry
        ⟨0, 100,
          [⟨"Line", 3, 0, 10, ⟨0,0,0⟩, ⟨0,0,0⟩, ⟨1,0,0⟩, ⟨0,0,0⟩⟩,
           ⟨"Curve", 7, 10, 20, ⟨1,1,0⟩, ⟨1,0,0⟩, ⟨2,0,0⟩, ⟨2,1,0⟩⟩]⟩
        Option.none
      = GeomResult.all
          [⟨"Line", 3, 0, 10, ⟨0,0,0⟩, ⟨0,0,0⟩, ⟨1,0,0⟩, ⟨0,0,0⟩⟩,
           ⟨"Curve", 7, 10, 20, ⟨1,1,0⟩, ⟨1,0,0⟩, ⟨2,0,0⟩, ⟨2,1,0⟩⟩]) := by
  refine ⟨by decide, ?_⟩
  exact (C1_get_geometry_hash_lookup
    ⟨0, 100,
      [⟨"Line", 3, 0, 10, ⟨0,0,0⟩, ⟨0,0,0⟩, ⟨1,0,0⟩, ⟨0,0,0⟩⟩,
       ⟨"Curve", 7, 10, 20, ⟨1,1,0⟩, ⟨1,0,0⟩, ⟨2,0,0⟩, ⟨2,1,0⟩⟩]⟩
    7 (by decide)).2.2.1

/-- C2: with `no_execute` absent and a non-empty discretization, `execute`
sets the object's `Points` property to exactly the list returned by
`discretize_geometry([0.0], Method, Seg_Value)`. -/
theorem C2_execute_sets_points (disc : List ℚ → String → ℚ → List Vec3)
    (obj : AlignObjState) (hne : disc [0] obj.method obj.segValue ≠ []) :
    (Alignment.execute false disc obj).points = disc [0] obj.method obj.segValue := by
  simp [Alignment.execute, hne]

/-- Witness for C2 at a concrete object and discretization. -/
theorem C2_execute_sets_points_witness :
    (Alignment.execute false (fun _ _ _ => [⟨1, 2, 3⟩])
      ⟨[], ⟨5, 5, 5⟩, "Segment", 200⟩).points = [⟨1, 2, 3⟩] :=
  C2_execute_sets_points (fun _ _ _ => [⟨1, 2, 3⟩])
    ⟨[], ⟨5, 5, 5⟩, "Segment", 200⟩ (by decide)

/-- C10: when the discretization comes back empty, `execute` returns early
and leaves both `Points` and `Placement` untouched. -/
theorem C10_execute_empty_is_noop (disc : List ℚ → String → ℚ → List Vec3)
    (obj : AlignObjState) (hemp : disc [0] obj.method obj.segValue = []) :
    (Alignment.execute false disc obj).points = obj.points ∧
    (Alignment.execute false disc obj).placementBase = obj.placementBase := by
  simp [Alignment.execute, hemp]

/-- Witness for C10 at a concrete object whose discretization is empty. -/
theorem C10_execute_empty_is_noop_witness :
    (Alignment.execute false (fun _ _ _ => [])
      ⟨[⟨9, 9, 9⟩], ⟨5, 5, 5⟩, "Tolerance", 10⟩).points = [⟨9, 9, 9⟩] ∧
    (Alignment.execute false (fun _ _ _ => [])
      ⟨[⟨9, 9, 9⟩], ⟨5, 5, 5⟩, "Tolerance", 10⟩).placementBase = ⟨5, 5, 5⟩ :=
  C10_execute_empty_is_noop (fun _ _ _ => [])
    ⟨[⟨9, 9, 9⟩], ⟨5, 5, 5⟩, "Tolerance", 10⟩ (by decide)

end AlignmentSrc

namespace PointGroupSrc

/-- Find over an append skips a block in which nothing matches. -/
theorem find?_append_of_none {α : Type} (p : α → Bool) (l1 l2 : List α)
    (h : l1.find? p = Option.none) : (l1 ++ l2).find? p = l2.find? p := by
  induction l1 with
  | nil => simp
  | cons a rest ih =>
    by_cases ha : p a
    · simp [List.find?, ha] at h
    · simp only [List.find?, ha, List.cons_append] at h ⊢
      exact ih h

/-- C7: `point_group.create(points, name)` adds one new document object,
whose `Label` is `name` and whose `Points` property is the supplied list,
and attaches a `ViewProviderPointGroup` to its view side. -/
theorem C7_point_group_create_adds_object (doc : PGDoc) (points : List Vec3)
    (name : String) (rgb : ℚ × ℚ × ℚ) :
    (point_group_create doc points name rgb).1.objs
      = doc.objs ++ [(point_group_create doc points name rgb).2]
    ∧ (point_group_create doc points name rgb).2.label = name
    ∧ (point_group_create doc points name rgb).2.points = points
    ∧ (point_group_create doc points name rgb).2.viewProxyClass
        = Option.some "ViewProviderPointGroup" := by
  refine ⟨rfl, rfl, rfl, rfl⟩

/-- C8: `point_groups.get()` is idempotent: when an object named
`PointGroups` already exists it is returned with the document unchanged; two
successive calls agree; and the number of `PointGroups` containers after a
call is `max` of the old count and one, so a second container is never
produced. -/
theorem C8_point_groups_get_idempotent (doc : PGDoc) :
    (∀ o, getObject doc "PointGroups" = Option.some o →
        point_groups_get doc = (doc, o))
    ∧ point_groups_get (point_groups_get doc).1
        = ((point_groups_get doc).1, (point_groups_get doc).2)
    ∧ pgCount (point_groups_get doc).1 = max (pgCount doc) 1 := by
  rcases hf : getObject doc "PointGroups" with _ | o
  · have hnone : ∀ o ∈ doc.objs, ¬ (o.name == "PointGroups") = true := by
      rw [← List.find?_eq_none]
      exact hf
    have hget : point_groups_get doc = point_groups_create doc := by
      simp [point_groups_get, hf]
    have hfind2 : getObject (point_groups_create doc).1 "PointGroups"
        = Option.some (point_groups_create doc).2 := by
      show ((doc.objs ++ [_]).find? _) = _
      rw [find?_append_of_none _ _ _ hf]
      rfl
    refine ⟨?_, ?_, ?_⟩
    · intro o ho
      exact absurd ho (by simp)
    · rw [hget, point_groups_get, hfind2]
    · rw [hget]
      have hcnt0 : pgCount doc = 0 := by
        simp only [pgCount, List.length_eq_zero, List.filter_eq_nil_iff]
        exact hnone
      have hstep : pgCount (point_groups_create doc).1 = pgCount doc + 1 := by
        simp [pgCount, point_groups_create, newObject, List.filter_append]
      rw [hstep, hcnt0]
      decide
  · have hpos : 1 ≤ pgCount doc := by
      have hmem := List.mem_of_find?_eq_some hf
      have hp := List.find?_some hf
      have : o ∈ doc.objs.filter (fun x => x.name == "PointGroups") :=
        List.mem_filter.2 ⟨hmem, hp⟩
      have := List.length_pos.2 (List.ne_nil_of_mem this)
      exact this
    have hget : point_groups_get doc = (doc, o) := by
      simp [point_groups_get, hf]
    refine ⟨?_, ?_, ?_⟩
    · intro o' ho'
      simp only [Option.some.injEq] at ho'
      rw [hget, ho']
    · rw [hget, hget]
    · rw [hget]
      exact (Nat.max_eq_left hpos).symm

/-- Witness for C8: a document already holding a `PointGroups` container. -/
theorem C8_point_groups_get_idempotent_witness :
    point_groups_get ⟨[⟨"App::DocumentObjectGroupPython", "PointGroups",
        "Point Groups", [], Option.some "PointGroups",
        Option.some "ViewProviderPointGroups", (0, 0, 0), 0⟩]⟩
      = (⟨[⟨"App::DocumentObjectGroupPython", "PointGroups",
          "Point Groups", [], Option.some "PointGroups",
          Option.some "ViewProviderPointGroups", (0, 0, 0), 0⟩]⟩,
         ⟨"App::DocumentObjectGroupPython", "PointGroups",
          "Point Groups", [], Option.some "PointGroups",
          Option.some "ViewProviderPointGroups", (0, 0, 0), 0⟩)
    ∧ pgCount (point_groups_get ⟨[⟨"App::DocumentObjectGroupPython",
        "PointGroups", "Point Groups", [], Option.some "PointGroups",
        Option.some "ViewProviderPointGroups", (0, 0, 0), 0⟩]⟩).1
      = max (pgCount ⟨[⟨"App::DocumentObjectGroupPython", "PointGroups",
          "Point Groups", [], Option.some "PointGroups",
          Option.some "ViewProviderPointGroups", (0, 0, 0), 0⟩]⟩) 1 :=
  ⟨(C8_point_groups_get_idempotent _).1 _ rfl,
   (C8_point_groups_get_idempotent _).2.2⟩

end PointGroupSrc

namespace RepoClasses

/-- Counterexample to C4 as stated: `CreateGuideLines` is a class of the
repository whose constructor takes no host-managed object at all (its
`__init__` has no parameter besides `self`), so not every class's
constructor takes and mutates a host-managed object. -/
theorem C4_counterexample :
    (⟨"CreateGuideLines", "geomatics/section/CreateGuideLines.py",
      [], false, false⟩ : RepoClass) ∈ repoClasses
    ∧ takesAndMutatesHostObject
        ⟨"CreateGuideLines", "geomatics/section/CreateGuideLines.py",
         [], false, false⟩ = false
    ∧ ¬ (∀ c ∈ repoClasses, takesAndMutatesHostObject c = true) := by
  decide

/-- C4 (amended): every class that registers itself as a host proxy — the
FeaturePython data classes and the view providers — has a constructor that
takes the host-managed object and mutates host-managed properties on it;
the only classes without such a constructor are the two GUI command classes
(`CreateGuideLines`, `DraftAlignmentCmd`) and the scene-graph tracker
`Marker`. -/
theorem C4_proxy_classes_take_host_object :
    (∀ c ∈ repoClasses, c.registersProxy = true →
        takesAndMutatesHostObject c = true)
    ∧ (∀ c ∈ repoClasses, takesAndMutatesHostObject c = false →
        c.cname ∈ ["Marker", "DraftAlignmentCmd", "CreateGuideLines"]) := by
  decide

/-- Witness for the amended C4 at the concrete class `PointGroup`. -/
theorem C4_proxy_classes_take_host_object_witness :
    takesAndMutatesHostObject
      ⟨"PointGroup", "geomatics/point/point_group.py", ["obj"], true, true⟩
      = true :=
  C4_proxy_classes_take_host_object.1
    ⟨"PointGroup", "geomatics/point/point_group.py", ["obj"], true, true⟩
    (by decide) (by decide)

end RepoClasses

namespace GuideLinesSrc

open AlignmentSrc

/-- C3: whenever `CreateGuideLines` runs to completion with nonzero
increments, the produced guide lines are exactly the retained stations
(candidates within the `[FirstStation, LastStation]` limits) in ascending
order, each yielding the three-point wire
`[Coord + vec*(l*1000), Coord, Coord - vec*(r*1000)]` built from
`get_orthogonal(Station, "Left")` and added to the selected group. -/
theorem C3_guide_lines_per_retained_station
    (l r : ℤ) (firstStation lastStation : ℚ) (grp : String) (ti csi : ℤ)
    (horGeoPoints : Bool) (data : AlignmentData) (ortho : ℚ → Vec3 × Vec3)
    (algPl : Vec3) (gls : List GuideLine)
    (hti : ti ≠ 0) (hcsi : csi ≠ 0)
    (hrun : CreateGuideLines_run l r firstStation lastStation
        (Option.some grp) ti csi horGeoPoints (Option.some data) ortho algPl
      = Option.some gls) :
    (∃ sortedStations : List ℚ,
        List.Sorted (· ≤ ·) sortedStations
        ∧ sortedStations.Perm
            ((stationCandidates horGeoPoints ti csi data).filter
              (fun s => decide (firstStation ≤ s) && decide (s ≤ lastStation)))
        ∧ gls = sortedStations.map (guideLineAt ortho l r algPl grp))
    ∧ (∀ s ∈ stationCandidates horGeoPoints ti csi data,
        firstStation ≤ s → s ≤ lastStation →
        guideLineAt ortho l r algPl grp s ∈ gls)
    ∧ (∀ gl ∈ gls, gl.group = grp) := by
  simp only [CreateGuideLines_run, Option.some.injEq] at hrun
  subst hrun
  refine ⟨⟨List.insertionSort (· ≤ ·)
      ((stationCandidates horGeoPoints ti csi data).filter
        (fun s => decide (firstStation ≤ s) && decide (s ≤ lastStation))),
      List.sorted_insertionSort _ _, List.perm_insertionSort _ _, rfl⟩, ?_, ?_⟩
  · intro s hs h1 h2
    refine List.mem_map.2 ⟨s, ?_, rfl⟩
    rw [List.mem_insertionSort]
    refine List.mem_filter.2 ⟨hs, ?_⟩
    simp [h1, h2]
  · intro gl hgl
    rcases List.mem_map.1 hgl with ⟨s, _, rfl⟩
    rfl

unseal Rat.add Rat.sub Rat.mul Rat.inv in
/-- Witness for C3: a one-line alignment from station 0 to 2 with unit
increments produces three guide lines, one per retained station. -/
theorem C3_guide_lines_per_retained_station_witness :
    guideLineAt (fun s => (⟨s, 0, 0⟩, ⟨0, 1, 0⟩)) 1 1 ⟨0, 0, 0⟩ "GL" 1
      ∈ [⟨[⟨0, 1000, 0⟩, ⟨0, 0, 0⟩, ⟨0, -1000, 0⟩], ⟨0, 0, 0⟩, 0, "GL"⟩,
         ⟨[⟨1, 1000, 0⟩, ⟨1, 0, 0⟩, ⟨1, -1000, 0⟩], ⟨0, 0, 0⟩, 1, "GL"⟩,
         ⟨[⟨2, 1000, 0⟩, ⟨2, 0, 0⟩, ⟨2, -1000, 0⟩], ⟨0, 0, 0⟩, 2, "GL"⟩] :=
  (C3_guide_lines_per_retained_station 1 1 0 2 "GL" 1 1 false
    ⟨0, 2000, [⟨"Line", 1, 0, 2000, ⟨0,0,0⟩, ⟨0,0,0⟩, ⟨2,0,0⟩, ⟨0,0,0⟩⟩]⟩
    (fun s => (⟨s, 0, 0⟩, ⟨0, 1, 0⟩)) ⟨0, 0, 0⟩
    [⟨[⟨0, 1000, 0⟩, ⟨0, 0, 0⟩, ⟨0, -1000, 0⟩], ⟨0, 0, 0⟩, 0, "GL"⟩,
     ⟨[⟨1, 1000, 0⟩, ⟨1, 0, 0⟩, ⟨1, -1000, 0⟩], ⟨0, 0, 0⟩, 1, "GL"⟩,
     ⟨[⟨2, 1000, 0⟩, ⟨2, 0, 0⟩, ⟨2, -1000, 0⟩], ⟨0, 0, 0⟩, 2, "GL"⟩]
    (by decide) (by decide) (by decide)).2.1 1 (by decide) (by decide) (by decide)

end GuideLinesSrc

namespace PyHeapSrc

/-- Lookups below the old size are unchanged by appending objects. -/
theorem lookup_append_left (H : Heap) (t : List PObj) (a : Nat)
    (h : a < H.size) : Heap.lookup ⟨H.objs ++ t⟩ a = H.lookup a := by
  simp only [Heap.lookup]
  exact List.getElem?_append_left h

/-- The freshly allocated address holds the allocated object. -/
theorem lookup_concat_self (H : Heap) (o : PObj) :
    Heap.lookup ⟨H.objs ++ [o]⟩ H.size = Option.some o := by
  simp only [Heap.lookup, Heap.size]
  exact List.getElem?_concat_length _ _

/-- Addresses at or beyond the size are unallocated. -/
theorem lookup_none_of_ge (H : Heap) (a : Nat) (h : H.size ≤ a) :
    H.lookup a = Option.none := by
  simp only [Heap.lookup]
  exact List.getElem?_eq_none h

/-- Writing one address leaves the others unchanged. -/
theorem lookup_write_ne (H : Heap) (a b : Nat) (o : PObj) (h : b ≠ a) :
    (H.write b o).lookup a = H.lookup a := by
  simp only [Heap.lookup, Heap.write]
  exact List.getElem?_set_ne h

/-- A wellformed heap is closed below its size. -/
theorem wf_closedP (H : Heap) (h : Heap.wf H = true) :
    H.closedP (fun a => a < H.size) := by
  intro a o _ ho
  have hmem : o ∈ H.objs := List.getElem?_mem ho
  exact (List.all_eq_true.1 h) o hmem

/-- Weakening of the address predicate on values. -/
theorem valInP_mono {p q : Nat → Bool} (hpq : ∀ a, p a = true → q a = true)
    (v : PVal) (h : valInP p v = true) : valInP q v = true := by
  cases v with
  | atom a => rfl
  | ref a => exact hpq a h

/-- Weakening of the address predicate on dict fields. -/
theorem fieldsInP_mono {p q : Nat → Bool} (hpq : ∀ a, p a = true → q a = true)
    (fs : List (String × PVal)) (h : fieldsInP p fs = true) :
    fieldsInP q fs = true := by
  simp only [fieldsInP, List.all_eq_true] at h ⊢
  exact fun kv hkv => valInP_mono hpq kv.2 (h kv hkv)

/-- Weakening of the address predicate on list items. -/
theorem itemsInP_mono {p q : Nat → Bool} (hpq : ∀ a, p a = true → q a = true)
    (xs : List PVal) (h : itemsInP p xs = true) : itemsInP q xs = true := by
  simp only [itemsInP, List.all_eq_true] at h ⊢
  exact fun v hv => valInP_mono hpq v (h v hv)

/-- Weakening of the address predicate on objects. -/
theorem objInP_mono {p q : Nat → Bool} (hpq : ∀ a, p a = true → q a = true)
    (o : PObj) (h : objInP p o = true) : objInP q o = true := by
  cases o with
  | dict fs => exact fieldsInP_mono hpq fs h
  | plist xs => exact itemsInP_mono hpq xs h

/-- The pure readout only consults heap cells at addresses satisfying the
predicate, so two heaps that agree there give the same readout. -/
theorem pure_agreeP (n : Nat) :
    (∀ H1 H2 p v, H1.closedP p →
        (∀ a, p a = true → H1.lookup a = H2.lookup a) →
        valInP p v = true → pureVal n H1 v = pureVal n H2 v)
    ∧ (∀ H1 H2 p fs, H1.closedP p →
        (∀ a, p a = true → H1.lookup a = H2.lookup a) →
        fieldsInP p fs = true → pureFields n H1 fs = pureFields n H2 fs)
    ∧ (∀ H1 H2 p xs, H1.closedP p →
        (∀ a, p a = true → H1.lookup a = H2.lookup a) →
        itemsInP p xs = true → pureItems n H1 xs = pureItems n H2 xs) := by
  induction n with
  | zero =>
    have hv : ∀ H1 H2 p v, H1.closedP p →
        (∀ a, p a = true → H1.lookup a = H2.lookup a) →
        valInP p v = true → pureVal 0 H1 v = pureVal 0 H2 v := by
      intro H1 H2 p v _ _ _
      cases v <;> simp [pureVal]
    refine ⟨hv, ?_, ?_⟩
    · intro H1 H2 p fs hc hag hin
      induction fs with
      | nil => simp [pureFields]
      | cons kv rest ih =>
        obtain ⟨k, v⟩ := kv
        simp only [fieldsInP, List.all_cons, Bool.and_eq_true] at hin
        have hrest : fieldsInP p rest = true := hin.2
        simp only [pureFields]
        rw [hv H1 H2 p v hc hag hin.1, ih hrest]
    · intro H1 H2 p xs hc hag hin
      induction xs with
      | nil => simp [pureItems]
      | cons v rest ih =>
        simp only [itemsInP, List.all_cons, Bool.and_eq_true] at hin
        have hrest : itemsInP p rest = true := hin.2
        simp only [pureItems]
        rw [hv H1 H2 p v hc hag hin.1, ih hrest]
  | succ n ih =>
    have hv : ∀ H1 H2 p v, H1.closedP p →
        (∀ a, p a = true → H1.lookup a = H2.lookup a) →
        valInP p v = true →
        pureVal (Nat.succ n) H1 v = pureVal (Nat.succ n) H2 v := by
      intro H1 H2 p v hc hag hin
      cases v with
      | atom a => simp [pureVal]
      | ref a =>
        have hpa : p a = true := hin
        have heq := hag a hpa
        cases ho : H1.lookup a with
        | none =>
          have ho2 : H2.lookup a = Option.none := by rw [← heq, ho]
          simp [pureVal, ho, ho2]
        | some o =>
          have ho2 : H2.lookup a = Option.some o := by rw [← heq, ho]
          have hobj := hc a o hpa ho
          cases o with
          | dict fs =>
            have hfs : fieldsInP p fs = true := hobj
            simp only [pureVal, ho, ho2]
            rw [ih.2.1 H1 H2 p fs hc hag hfs]
          | plist xs =>
            have hxs : itemsInP p xs = true := hobj
            simp only [pureVal, ho, ho2]
            rw [ih.2.2 H1 H2 p xs hc hag hxs]
    refine ⟨hv, ?_, ?_⟩
    · intro H1 H2 p fs hc hag hin
      induction fs with
      | nil => simp [pureFields]
      | cons kv rest ih2
      =>
        obtain ⟨k, v⟩ := kv
        simp only [fieldsInP, List.all_cons, Bool.and_eq_true] at hin
        have hrest : fieldsInP p rest = true := hin.2
        simp only [pureFields]
        rw [hv H1 H2 p v hc hag hin.1, ih2 hrest]
    · intro H1 H2 p xs hc hag hin
      induction xs with
      | nil => simp [pureItems]
      | cons v rest ih2
      =>
        simp only [itemsInP, List.all_cons, Bool.and_eq_true] at hin
        have hrest : itemsInP p rest = true := hin.2
        simp only [pureItems]
        rw [hv H1 H2 p v hc hag hin.1, ih2 hrest]

/-- Bound weakening for the decidable below-predicate. -/
theorem below_mono {k k' : Nat} (h : k ≤ k') :
    ∀ a, decide (a < k) = true → decide (a < k') = true :=
  fun _ ha => decide_eq_true (Nat.lt_of_lt_of_le (of_decide_eq_true ha) h)

/-- Bound weakening for the decidable at-least-predicate. -/
theorem atLeast_mono {k k' : Nat} (h : k' ≤ k) :
    ∀ a, decide (k ≤ a) = true → decide (k' ≤ a) = true :=
  fun _ ha => decide_eq_true (Nat.le_trans h (of_decide_eq_true ha))

/-- An extension heap is at least as large. -/
theorem size_le_of_append (H H1 : Heap) (t : List PObj)
    (h : H1.objs = H.objs ++ t) : H.size ≤ H1.size := by
  simp only [Heap.size, h, List.length_append]
  exact Nat.le_add_right _ _

/-- Size after allocating one object. -/
theorem size_concat (H : Heap) (o : PObj) :
    (⟨H.objs ++ [o]⟩ : Heap).size = H.size + 1 := by
  simp [Heap.size]

/-- Appending an object whose references stay below the new size preserves
wellformedness. -/
theorem wf_append (H : Heap) (o : PObj) (hwf : Heap.wf H = true)
    (ho : objInP (fun a => a < H.size + 1) o = true) :
    Heap.wf ⟨H.objs ++ [o]⟩ = true := by
  show (H.objs ++ [o]).all
    (objInP (fun a => a < (⟨H.objs ++ [o]⟩ : Heap).size)) = true
  rw [size_concat, List.all_append]
  simp only [Bool.and_eq_true, List.all_cons, List.all_nil, Bool.and_true]
  constructor
  · simp only [Heap.wf] at hwf
    rw [List.all_eq_true] at hwf ⊢
    exact fun x hx =>
      objInP_mono (below_mono (Nat.le_succ H.size)) x (hwf x hx)
  · exact ho

/-- Pure readout of a below-bounded value is stable under heap extension. -/
theorem pureVal_extend (n : Nat) (H : Heap) (t : List PObj) (v : PVal)
    (hwf : Heap.wf H = true) (hv : valBelow H.size v = true) :
    pureVal n ⟨H.objs ++ t⟩ v = pureVal n H v :=
  ((pure_agreeP n).1 H ⟨H.objs ++ t⟩ (fun a => a < H.size) v
    (wf_closedP H hwf)
    (fun a hpa => (lookup_append_left H t a (of_decide_eq_true hpa)).symm)
    hv).symm

/-- Pure readout of below-bounded dict fields is stable under extension. -/
theorem pureFields_extend (n : Nat) (H : Heap) (t : List PObj)
    (fs : List (String × PVal)) (hwf : Heap.wf H = true)
    (hfs : fieldsInP (fun a => a < H.size) fs = true) :
    pureFields n ⟨H.objs ++ t⟩ fs = pureFields n H fs :=
  ((pure_agreeP n).2.1 H ⟨H.objs ++ t⟩ (fun a => a < H.size) fs
    (wf_closedP H hwf)
    (fun a hpa => (lookup_append_left H t a (of_decide_eq_true hpa)).symm)
    hfs).symm

/-- Pure readout of below-bounded list items is stable under extension. -/
theorem pureItems_extend (n : Nat) (H : Heap) (t : List PObj)
    (xs : List PVal) (hwf : Heap.wf H = true)
    (hxs : itemsInP (fun a => a < H.size) xs = true) :
    pureItems n ⟨H.objs ++ t⟩ xs = pureItems n H xs :=
  ((pure_agreeP n).2.2 H ⟨H.objs ++ t⟩ (fun a => a < H.size) xs
    (wf_closedP H hwf)
    (fun a hpa => (lookup_append_left H t a (of_decide_eq_true hpa)).symm)
    hxs).symm

/-- Lookup below the old size through an extension equation. -/
theorem lookup_extends (H H2 : Heap) (t : List PObj)
    (hE : H2.objs = H.objs ++ t) (a : Nat) (ha : a < H.size) :
    H2.lookup a = H.lookup a := by
  simp only [Heap.lookup, hE]
  exact List.getElem?_append_left ha

/-- Lookup of the allocated object through an extension equation. -/
theorem lookup_at_length (H H2 : Heap) (o : PObj)
    (hE : H2.objs = H.objs ++ [o]) :
    H2.lookup H.objs.length = Option.some o := by
  simp only [Heap.lookup, hE]
  exact List.getElem?_concat_length _ _

/-- Pure value readout through an extension equation. -/
theorem pureVal_extends (n : Nat) (H H2 : Heap) (t : List PObj)
    (hE : H2.objs = H.objs ++ t) (v : PVal)
    (hwf : Heap.wf H = true) (hv : valBelow H.size v = true) :
    pureVal n H2 v = pureVal n H v :=
  ((pure_agreeP n).1 H H2 (fun a => a < H.size) v (wf_closedP H hwf)
    (fun a hpa => (lookup_extends H H2 t hE a (of_decide_eq_true hpa)).symm)
    hv).symm

/-- Pure fields readout through an extension equation. -/
theorem pureFields_extends (n : Nat) (H H2 : Heap) (t : List PObj)
    (hE : H2.objs = H.objs ++ t) (fs : List (String × PVal))
    (hwf : Heap.wf H = true)
    (hfs : fieldsInP (fun a => a < H.size) fs = true) :
    pureFields n H2 fs = pureFields n H fs :=
  ((pure_agreeP n).2.1 H H2 (fun a => a < H.size) fs (wf_closedP H hwf)
    (fun a hpa => (lookup_extends H H2 t hE a (of_decide_eq_true hpa)).symm)
    hfs).symm

/-- Pure items readout through an extension equation. -/
theorem pureItems_extends (n : Nat) (H H2 : Heap) (t : List PObj)
    (hE : H2.objs = H.objs ++ t) (xs : List PVal)
    (hwf : Heap.wf H = true)
    (hxs : itemsInP (fun a => a < H.size) xs = true) :
    pureItems n H2 xs = pureItems n H xs :=
  ((pure_agreeP n).2.2 H H2 (fun a => a < H.size) xs (wf_closedP H hwf)
    (fun a hpa => (lookup_extends H H2 t hE a (of_decide_eq_true hpa)).symm)
    hxs).symm

/-- Copy of an atom is the identity step. -/
theorem deepcopyVal_atom (n : Nat) (H : Heap) (a : PAtom) :
    deepcopyVal n H (PVal.atom a) = Option.some (H, PVal.atom a) := by
  cases n <;> simp [deepcopyVal]

/-- Pure readout of an atom. -/
theorem pureVal_atom (n : Nat) (H : Heap) (a : PAtom) :
    pureVal n H (PVal.atom a) = Option.some (PTree.atom a) := by
  cases n <;> simp [pureVal]

/-- Copy of an empty field list is the identity step. -/
theorem deepcopyFields_nil (n : Nat) (H : Heap) :
    deepcopyFields n H [] = Option.some (H, []) := by
  cases n <;> simp [deepcopyFields]

/-- Copy equation for a field cons cell. -/
theorem deepcopyFields_cons (n : Nat) (H : Heap) (k : String) (v : PVal)
    (rest : List (String × PVal)) :
    deepcopyFields n H ((k, v) :: rest) =
      (match deepcopyVal n H v with
       | Option.none => Option.none
       | Option.some (H1, v1) =>
         match deepcopyFields n H1 rest with
         | Option.none => Option.none
         | Option.some (H2, rest2) => Option.some (H2, (k, v1) :: rest2)) := by
  cases n <;> simp [deepcopyFields]

/-- Copy of an empty item list is the identity step. -/
theorem deepcopyItems_nil (n : Nat) (H : Heap) :
    deepcopyItems n H [] = Option.some (H, []) := by
  cases n <;> simp [deepcopyItems]

/-- Copy equation for an item cons cell. -/
theorem deepcopyItems_cons (n : Nat) (H : Heap) (v : PVal)
    (rest : List PVal) :
    deepcopyItems n H (v :: rest) =
      (match deepcopyVal n H v with
       | Option.none => Option.none
       | Option.some (H1, v1) =>
         match deepcopyItems n H1 rest with
         | Option.none => Option.none
         | Option.some (H2, rest2) => Option.some (H2, v1 :: rest2)) := by
  cases n <;> simp [deepcopyItems]

/-- Readout equation for a field cons cell. -/
theorem pureFields_cons (n : Nat) (H : Heap) (k : String) (v : PVal)
    (rest : List (String × PVal)) :
    pureFields n H ((k, v) :: rest) =
      (match pureVal n H v, pureFields n H rest with
       | Option.some t, Option.some ts => Option.some ((k, t) :: ts)
       | _, _ => Option.none) := by
  cases n <;> simp [pureFields]

/-- Readout equation for an item cons cell. -/
theorem pureItems_cons (n : Nat) (H : Heap) (v : PVal) (rest : List PVal) :
    pureItems n H (v :: rest) =
      (match pureVal n H v, pureItems n H rest with
       | Option.some t, Option.some ts => Option.some (t :: ts)
       | _, _ => Option.none) := by
  cases n <;> simp [pureItems]

/-- The bundled conclusions hold for the identity atom step. -/
theorem copyValOk_atom (n : Nat) (H : Heap) (a : PAtom)
    (hwf : Heap.wf H = true) : CopyValOk n H (PVal.atom a) H (PVal.atom a) := by
  refine ⟨⟨[], by simp⟩, hwf, rfl, rfl, ?_, rfl⟩
  intro b o hge hlook
  rw [lookup_none_of_ge H b hge] at hlook
  cases hlook

/-- The bundled conclusions hold for the empty field list step. -/
theorem copyFieldsOk_nil (n : Nat) (H : Heap) (hwf : Heap.wf H = true) :
    CopyFieldsOk n H [] H [] := by
  refine ⟨⟨[], by simp⟩, hwf, rfl, rfl, ?_, rfl⟩
  intro b o hge hlook
  rw [lookup_none_of_ge H b hge] at hlook
  cases hlook

/-- The bundled conclusions hold for the empty item list step. -/
theorem copyItemsOk_nil (n : Nat) (H : Heap) (hwf : Heap.wf H = true) :
    CopyItemsOk n H [] H [] := by
  refine ⟨⟨[], by simp⟩, hwf, rfl, rfl, ?_, rfl⟩
  intro b o hge hlook
  rw [lookup_none_of_ge H b hge] at hlook
  cases hlook

/-- Field-list copies are correct at any fuel at which value copies are. -/
theorem copyFieldsOk_go (n : Nat)
    (hval : ∀ H v H' v', Heap.wf H = true → valBelow H.size v = true →
        deepcopyVal n H v = Option.some (H', v') → CopyValOk n H v H' v') :
    ∀ fs H H' fs', Heap.wf H = true →
      fieldsInP (fun a => a < H.size) fs = true →
      deepcopyFields n H fs = Option.some (H', fs') →
      CopyFieldsOk n H fs H' fs' := by
  intro fs
  induction fs with
  | nil =>
    intro H H' fs' hwf hin hcopy
    rw [deepcopyFields_nil] at hcopy
    simp only [Option.some.injEq, Prod.mk.injEq] at hcopy
    obtain ⟨h1, h2⟩ := hcopy
    subst h1
    subst h2
    exact copyFieldsOk_nil n H hwf
  | cons kv rest ih =>
    intro H H' fs' hwf hin hcopy
    obtain ⟨k, v⟩ := kv
    simp only [fieldsInP, List.all_cons, Bool.and_eq_true] at hin
    rw [deepcopyFields_cons] at hcopy
    cases hc1 : deepcopyVal n H v with
    | none => rw [hc1] at hcopy; cases hcopy
    | some p1 =>
      obtain ⟨H1, v1⟩ := p1
      rw [hc1] at hcopy
      cases hc2 : deepcopyFields n H1 rest with
      | none =>
        simp only [hc2] at hcopy
        cases hcopy
      | some p2 =>
        obtain ⟨H2, rest2⟩ := p2
        simp only [hc2, Option.some.injEq, Prod.mk.injEq] at hcopy
        obtain ⟨hH, hfs⟩ := hcopy
        subst hH
        subst hfs
        obtain ⟨⟨t1, ht1⟩, hwf1, hb1, hf1, hreg1, hp1⟩ :=
          hval H v H1 v1 hwf hin.1 hc1
        have hsz1 : H.size ≤ H1.size := size_le_of_append H H1 t1 ht1
        have hrestBel : fieldsInP (fun a => a < H1.size) rest = true :=
          fieldsInP_mono (below_mono hsz1) rest hin.2
        obtain ⟨⟨t2, ht2⟩, hwf2, hb2, hf2, hreg2, hp2⟩ :=
          ih H1 H2 rest2 hwf1 hrestBel hc2
        have hsz2 : H1.size ≤ H2.size := size_le_of_append H1 H2 t2 ht2
        refine ⟨⟨t1 ++ t2, ?_⟩, hwf2, ?_, ?_, ?_, ?_⟩
        · rw [ht2, ht1, List.append_assoc]
        · simp only [fieldsInP, List.all_cons, Bool.and_eq_true]
          exact ⟨valInP_mono (below_mono hsz2) v1 hb1, hb2⟩
        · simp only [fieldsInP, List.all_cons, Bool.and_eq_true]
          exact ⟨hf1, fieldsInP_mono (atLeast_mono hsz1) rest2 hf2⟩
        · intro b o hge hlook
          rcases Nat.lt_or_ge b H1.size with hb | hb
          · exact hreg1 b o hge
              ((lookup_extends H1 H2 t2 ht2 b hb) ▸ hlook)
          · exact objInP_mono (atLeast_mono hsz1) o (hreg2 b o hb hlook)
        · have hvres : pureVal n H2 v1 = pureVal n H v := by
            rw [pureVal_extends n H1 H2 t2 ht2 v1 hwf1 hb1, hp1]
          have hrres : pureFields n H2 rest2 = pureFields n H rest := by
            rw [hp2, pureFields_extends n H H1 t1 ht1 rest hwf hin.2]
          rw [pureFields_cons, pureFields_cons, hvres, hrres]

/-- Item-list copies are correct at any fuel at which value copies are. -/
theorem copyItemsOk_go (n : Nat)
    (hval : ∀ H v H' v', Heap.wf H = true → valBelow H.size v = true →
        deepcopyVal n H v = Option.some (H', v') → CopyValOk n H v H' v') :
    ∀ xs H H' xs', Heap.wf H = true →
      itemsInP (fun a => a < H.size) xs = true →
      deepcopyItems n H xs = Option.some (H', xs') →
      CopyItemsOk n H xs H' xs' := by
  intro xs
  induction xs with
  | nil =>
    intro H H' xs' hwf hin hcopy
    rw [deepcopyItems_nil] at hcopy
    simp only [Option.some.injEq, Prod.mk.injEq] at hcopy
    obtain ⟨h1, h2⟩ := hcopy
    subst h1
    subst h2
    exact copyItemsOk_nil n H hwf
  | cons v rest ih =>
    intro H H' xs' hwf hin hcopy
    simp only [itemsInP, List.all_cons, Bool.and_eq_true] at hin
    rw [deepcopyItems_cons] at hcopy
    cases hc1 : deepcopyVal n H v with
    | none => rw [hc1] at hcopy; cases hcopy
    | some p1 =>
      obtain ⟨H1, v1⟩ := p1
      rw [hc1] at hcopy
      cases hc2 : deepcopyItems n H1 rest with
      | none =>
        simp only [hc2] at hcopy
        cases hcopy
      | some p2 =>
        obtain ⟨H2, rest2⟩ := p2
        simp only [hc2, Option.some.injEq, Prod.mk.injEq] at hcopy
        obtain ⟨hH, hxs⟩ := hcopy
        subst hH
        subst hxs
        obtain ⟨⟨t1, ht1⟩, hwf1, hb1, hf1, hreg1, hp1⟩ :=
          hval H v H1 v1 hwf hin.1 hc1
        have hsz1 : H.size ≤ H1.size := size_le_of_append H H1 t1 ht1
        have hrestBel : itemsInP (fun a => a < H1.size) rest = true :=
          itemsInP_mono (below_mono hsz1) rest hin.2
        obtain ⟨⟨t2, ht2⟩, hwf2, hb2, hf2, hreg2, hp2⟩ :=
          ih H1 H2 rest2 hwf1 hrestBel hc2
        have hsz2 : H1.size ≤ H2.size := size_le_of_append H1 H2 t2 ht2
        refine ⟨⟨t1 ++ t2, ?_⟩, hwf2, ?_, ?_, ?_, ?_⟩
        · rw [ht2, ht1, List.append_assoc]
        · simp only [itemsInP, List.all_cons, Bool.and_eq_true]
          exact ⟨valInP_mono (below_mono hsz2) v1 hb1, hb2⟩
        · simp only [itemsInP, List.all_cons, Bool.and_eq_true]
          exact ⟨hf1, itemsInP_mono (atLeast_mono hsz1) rest2 hf2⟩
        · intro b o hge hlook
          rcases Nat.lt_or_ge b H1.size with hb | hb
          · exact hreg1 b o hge
              ((lookup_extends H1 H2 t2 ht2 b hb) ▸ hlook)
          · exact objInP_mono (atLeast_mono hsz1) o (hreg2 b o hb hlook)
        · have hvres : pureVal n H2 v1 = pureVal n H v := by
            rw [pureVal_extends n H1 H2 t2 ht2 v1 hwf1 hb1, hp1]
          have hrres : pureItems n H2 rest2 = pureItems n H rest := by
            rw [hp2, pureItems_extends n H H1 t1 ht1 rest hwf hin.2]
          rw [pureItems_cons, pureItems_cons, hvres, hrres]

/-- Deep-copy correctness at every fuel: the copy extends the heap, stays
wellformed, lives entirely in the fresh region and denotes the same pure
tree as the original. -/
theorem deepcopy_correct (n : Nat) :
    (∀ H v H' v', Heap.wf H = true → valBelow H.size v = true →
        deepcopyVal n H v = Option.some (H', v') → CopyValOk n H v H' v')
    ∧ (∀ fs H H' fs', Heap.wf H = true →
        fieldsInP (fun a => a < H.size) fs = true →
        deepcopyFields n H fs = Option.some (H', fs') →
        CopyFieldsOk n H fs H' fs')
    ∧ (∀ xs H H' xs', Heap.wf H = true →
        itemsInP (fun a => a < H.size) xs = true →
        deepcopyItems n H xs = Option.some (H', xs') →
        CopyItemsOk n H xs H' xs') := by
  induction n with
  | zero =>
    have hv : ∀ H v H' v', Heap.wf H = true → valBelow H.size v = true →
        deepcopyVal 0 H v = Option.some (H', v') → CopyValOk 0 H v H' v' := by
      intro H v H' v' hwf _ hcopy
      cases v with
      | atom a =>
        rw [deepcopyVal_atom] at hcopy
        simp only [Option.some.injEq, Prod.mk.injEq] at hcopy
        obtain ⟨h1, h2⟩ := hcopy
        subst h1
        subst h2
        exact copyValOk_atom 0 H a hwf
      | ref a => simp [deepcopyVal] at hcopy
    exact ⟨hv, copyFieldsOk_go 0 hv, copyItemsOk_go 0 hv⟩
  | succ n ih =>
    have hv : ∀ H v H' v', Heap.wf H = true → valBelow H.size v = true →
        deepcopyVal (Nat.succ n) H v = Option.some (H', v') →
        CopyValOk (Nat.succ n) H v H' v' := by
      intro H v H' v' hwf hbel hcopy
      cases v with
      | atom a =>
        rw [deepcopyVal_atom] at hcopy
        simp only [Option.some.injEq, Prod.mk.injEq] at hcopy
        obtain ⟨h1, h2⟩ := hcopy
        subst h1
        subst h2
        exact copyValOk_atom _ H a hwf
      | ref a =>
        cases ho : H.lookup a with
        | none => simp [deepcopyVal, ho] at hcopy
        | some o =>
          have hov : objInP (fun b => b < H.size) o = true :=
            wf_closedP H hwf a o hbel ho
          cases o with
          | dict fs =>
            simp only [deepcopyVal, ho] at hcopy
            cases hcf : deepcopyFields n H fs with
            | none =>
              simp only [hcf] at hcopy
              cases hcopy
            | some p1 =>
              obtain ⟨H1, fs1⟩ := p1
              simp only [hcf, Heap.alloc, Option.some.injEq,
                Prod.mk.injEq] at hcopy
              obtain ⟨hH, hv'⟩ := hcopy
              subst hH
              subst hv'
              obtain ⟨⟨t1, ht1⟩, hwf1, hb1, hf1, hreg1, hp1⟩ :=
                ih.2.1 fs H H1 fs1 hwf hov hcf
              have hE : (⟨H1.objs ++ [PObj.dict fs1]⟩ : Heap).objs
                  = H1.objs ++ [PObj.dict fs1] := rfl
              have hsz1 : H.size ≤ H1.size := size_le_of_append H H1 t1 ht1
              refine ⟨⟨t1 ++ [PObj.dict fs1], ?_⟩, ?_, ?_, ?_, ?_, ?_⟩
              · show H1.objs ++ [PObj.dict fs1] = H.objs ++ _
                rw [ht1, List.append_assoc]
              · exact wf_append H1 (PObj.dict fs1) hwf1
                  (fieldsInP_mono (below_mono (Nat.le_succ H1.size)) fs1 hb1)
              · simp only [valBelow, valInP, Heap.size, List.length_append,
                  List.length_cons, List.length_nil, decide_eq_true_eq]
                exact Nat.lt_succ_self _
              · simp only [valInP, decide_eq_true_eq]
                exact hsz1
              · intro b o hge hlook
                rcases Nat.lt_trichotomy b H1.size with hb | hb | hb
                · exact hreg1 b o hge
                    ((lookup_extends H1 _ [PObj.dict fs1] hE b hb) ▸ hlook)
                · subst hb
                  rw [show Heap.size H1 = H1.objs.length from rfl] at hlook
                  rw [lookup_at_length H1 _ (PObj.dict fs1) hE] at hlook
                  simp only [Option.some.injEq] at hlook
                  subst hlook
                  exact hf1
                · rw [lookup_none_of_ge _ b
                    (by simpa [Heap.size] using Nat.succ_le_of_lt hb)] at hlook
                  cases hlook
              · have hLs : Heap.lookup ⟨H1.objs ++ [PObj.dict fs1]⟩
                    H1.objs.length = Option.some (PObj.dict fs1) :=
                  lookup_at_length H1 _ (PObj.dict fs1) hE
                simp only [pureVal, ho, hLs]
                rw [pureFields_extends n H1 _ [PObj.dict fs1] hE fs1 hwf1 hb1,
                  hp1]
          | plist xs =>
            simp only [deepcopyVal, ho] at hcopy
            cases hcf : deepcopyItems n H xs with
            | none =>
              simp only [hcf] at hcopy
              cases hcopy
            | some p1 =>
              obtain ⟨H1, xs1⟩ := p1
              simp only [hcf, Heap.alloc, Option.some.injEq,
                Prod.mk.injEq] at hcopy
              obtain ⟨hH, hv'⟩ := hcopy
              subst hH
              subst hv'
              obtain ⟨⟨t1, ht1⟩, hwf1, hb1, hf1, hreg1, hp1⟩ :=
                ih.2.2 xs H H1 xs1 hwf hov hcf
              have hE : (⟨H1.objs ++ [PObj.plist xs1]⟩ : Heap).objs
                  = H1.objs ++ [PObj.plist xs1] := rfl
              have hsz1 : H.size ≤ H1.size := size_le_of_append H H1 t1 ht1
              refine ⟨⟨t1 ++ [PObj.plist xs1], ?_⟩, ?_, ?_, ?_, ?_, ?_⟩
              · show H1.objs ++ [PObj.plist xs1] = H.objs ++ _
                rw [ht1, List.append_assoc]
              · exact wf_append H1 (PObj.plist xs1) hwf1
                  (itemsInP_mono (below_mono (Nat.le_succ H1.size)) xs1 hb1)
              · simp only [valBelow, valInP, Heap.size, List.length_append,
                  List.length_cons, List.length_nil, decide_eq_true_eq]
                exact Nat.lt_succ_self _
              · simp only [valInP, decide_eq_true_eq]
                exact hsz1
              · intro b o hge hlook
                rcases Nat.lt_trichotomy b H1.size with hb | hb | hb
                · exact hreg1 b o hge
                    ((lookup_extends H1 _ [PObj.plist xs1] hE b hb) ▸ hlook)
                · subst hb
                  rw [show Heap.size H1 = H1.objs.length from rfl] at hlook
                  rw [lookup_at_length H1 _ (PObj.plist xs1) hE] at hlook
                  simp only [Option.some.injEq] at hlook
                  subst hlook
                  exact hf1
                · rw [lookup_none_of_ge _ b
                    (by simpa [Heap.size] using Nat.succ_le_of_lt hb)] at hlook
                  cases hlook
              · have hLs : Heap.lookup ⟨H1.objs ++ [PObj.plist xs1]⟩
                    H1.objs.length = Option.some (PObj.plist xs1) :=
                  lookup_at_length H1 _ (PObj.plist xs1) hE
                simp only [pureVal, ho, hLs]
                rw [pureItems_extends n H1 _ [PObj.plist xs1] hE xs1 hwf1 hb1,
                  hp1]
    exact ⟨hv, copyFieldsOk_go (Nat.succ n) hv, copyItemsOk_go (Nat.succ n) hv⟩

/-- C9: `get_data_copy` returns a dataset structurally equal to the value
returned by `get_data`, while `get_data` returns the model's data reference
itself; the copy shares no mutable state with the model: mutating any heap
cell of the copy (the fresh region) leaves the dataset's value unchanged,
and mutating any original cell leaves the copy's value unchanged. -/
theorem C9_get_data_copy_deep (n : Nat) (H H' : Heap) (d d' : PVal)
    (hwf : Heap.wf H = true) (hbel : valBelow H.size d = true)
    (hcopy : get_data_copy n H d = Option.some (H', d')) :
    get_data d = d
    ∧ pureVal n H' d' = pureVal n H (get_data d)
    ∧ (∀ b o, H.size ≤ b →
        pureVal n (Heap.write H' b o) d = pureVal n H d)
    ∧ (∀ b o, b < H.size →
        pureVal n (Heap.write H' b o) d' = pureVal n H' d') := by
  obtain ⟨⟨t, ht⟩, hwf', hb', hfr', hreg', hp'⟩ :=
    (deepcopy_correct n).1 H d H' d' hwf hbel hcopy
  refine ⟨rfl, hp', ?_, ?_⟩
  · intro b o hge
    refine ((pure_agreeP n).1 H (Heap.write H' b o) (fun a => a < H.size) d
      (wf_closedP H hwf) ?_ hbel).symm
    intro a hpa
    have ha : a < H.size := of_decide_eq_true hpa
    have hne : b ≠ a :=
      (Nat.ne_of_lt (Nat.lt_of_lt_of_le ha hge)).symm
    exact ((lookup_write_ne H' a b o hne).trans
      (lookup_extends H H' t ht a ha)).symm
  · intro b o hlt
    refine ((pure_agreeP n).1 H' (Heap.write H' b o)
      (fun a => H.size ≤ a) d' ?_ ?_ hfr').symm
    · intro a o' hpa hlook
      exact hreg' a o' (of_decide_eq_true hpa) hlook
    · intro a hpa
      have ha : H.size ≤ a := of_decide_eq_true hpa
      have hne : b ≠ a := Nat.ne_of_lt (Nat.lt_of_lt_of_le hlt ha)
      exact (lookup_write_ne H' a b o hne).symm

/-- Witness for C9 on a concrete two-object dataset (a dict holding a list),
copied with fuel 3 into two fresh heap cells. -/
theorem C9_get_data_copy_deep_witness :
    get_data (PVal.ref 0) = PVal.ref 0
    ∧ pureVal 3
        ⟨[PObj.dict [("meta", PVal.ref 1), ("x", PVal.atom (PAtom.num 1))],
          PObj.plist [PVal.atom (PAtom.str "s")],
          PObj.plist [PVal.atom (PAtom.str "s")],
          PObj.dict [("meta", PVal.ref 2), ("x", PVal.atom (PAtom.num 1))]]⟩
        (PVal.ref 3)
      = pureVal 3
        ⟨[PObj.dict [("meta", PVal.ref 1), ("x", PVal.atom (PAtom.num 1))],
          PObj.plist [PVal.atom (PAtom.str "s")]]⟩
        (get_data (PVal.ref 0))
    ∧ (∀ b o, Heap.size
          ⟨[PObj.dict [("meta", PVal.ref 1), ("x", PVal.atom (PAtom.num 1))],
            PObj.plist [PVal.atom (PAtom.str "s")]]⟩ ≤ b →
        pureVal 3
          (Heap.write
            ⟨[PObj.dict [("meta", PVal.ref 1), ("x", PVal.atom (PAtom.num 1))],
              PObj.plist [PVal.atom (PAtom.str "s")],
              PObj.plist [PVal.atom (PAtom.str "s")],
              PObj.dict [("meta", PVal.ref 2), ("x", PVal.atom (PAtom.num 1))]]⟩
            b o)
          (PVal.ref 0)
        = pureVal 3
          ⟨[PObj.dict [("meta", PVal.ref 1), ("x", PVal.atom (PAtom.num 1))],
            PObj.plist [PVal.atom (PAtom.str "s")]]⟩
          (PVal.ref 0))
    ∧ (∀ b o, b < Heap.size
          ⟨[PObj.dict [("meta", PVal.ref 1), ("x", PVal.atom (PAtom.num 1))],
            PObj.plist [PVal.atom (PAtom.str "s")]]⟩ →
        pureVal 3
          (Heap.write
            ⟨[PObj.dict [("meta", PVal.ref 1), ("x", PVal.atom (PAtom.num 1))],
              PObj.plist [PVal.atom (PAtom.str "s")],
              PObj.plist [PVal.atom (PAtom.str "s")],
              PObj.dict [("meta", PVal.ref 2), ("x", PVal.atom (PAtom.num 1))]]⟩
            b o)
          (PVal.ref 3)
        = pureVal 3
          ⟨[PObj.dict [("meta", PVal.ref 1), ("x", PVal.atom (PAtom.num 1))],
            PObj.plist [PVal.atom (PAtom.str "s")],
            PObj.plist [PVal.atom (PAtom.str "s")],
            PObj.dict [("meta", PVal.ref 2), ("x", PVal.atom (PAtom.num 1))]]⟩
          (PVal.ref 3)) :=
  C9_get_data_copy_deep 3
    ⟨[PObj.dict [("meta", PVal.ref 1), ("x", PVal.atom (PAtom.num 1))],
      PObj.plist [PVal.atom (PAtom.str "s")]]⟩
    ⟨[PObj.dict [("meta", PVal.ref 1), ("x", PVal.atom (PAtom.num 1))],
      PObj.plist [PVal.atom (PAtom.str "s")],
      PObj.plist [PVal.atom (PAtom.str "s")],
      PObj.dict [("meta", PVal.ref 2), ("x", PVal.atom (PAtom.num 1))]]⟩
    (PVal.ref 0) (PVal.ref 3)
    (by decide) (by decide)
    (by simp [get_data_copy, deepcopyVal, deepcopyFields_cons,
      deepcopyFields_nil, deepcopyItems_cons, deepcopyItems_nil,
      deepcopyVal_atom, Heap.lookup, Heap.alloc])

end PyHeapSrc

namespace DraftCmdSrc

/-- Name-targeted lookup commutes with a name-preserving per-object map. -/
theorem find?_name_map (objs : List DObj) (g : DObj → DObj)
    (hg : ∀ o, (g o).name = o.name) (tg : String) :
    (objs.map g).find? (fun o => o.name == tg)
      = (objs.find? (fun o => o.name == tg)).map g := by
  rw [List.find?_map]
  have hp : ((fun o : DObj => o.name == tg) ∘ g)
      = (fun o : DObj => o.name == tg) := by
    funext o
    simp [Function.comp, hg]
  rw [hp]

/-- View updates preserve the name list. -/
theorem names_mapVObj (d : Doc) (nm : String) (f : VObj → VObj) :
    (d.mapVObj nm f).names = d.names := by
  simp only [Doc.names, Doc.mapVObj, List.map_map]
  apply List.map_congr_left
  intro o _
  by_cases h : o.name = nm <;> simp [Function.comp, h]

/-- View updates preserve every group's member list. -/
theorem membersOf_mapVObj (d : Doc) (nm : String) (f : VObj → VObj)
    (tg : String) : membersOf (d.mapVObj nm f) tg = membersOf d tg := by
  simp only [membersOf, Doc.getObject, Doc.mapVObj]
  rw [find?_name_map _ _ (fun o => by by_cases h : o.name = nm <;> simp [h]) tg]
  cases hf : (d.objs.find? fun o => o.name == tg) with
  | none => rfl
  | some o => by_cases h : o.name = nm <;> simp [h]

/-- Folded view updates preserve the name list. -/
theorem names_foldl_mapVObj (f : VObj → VObj) (nms : List String) (d : Doc) :
    (nms.foldl (fun d nm => d.mapVObj nm f) d).names = d.names := by
  induction nms generalizing d with
  | nil => rfl
  | cons nm rest ih => rw [List.foldl_cons, ih, names_mapVObj]

/-- Folded view updates preserve every group's member list. -/
theorem membersOf_foldl_mapVObj (f : VObj → VObj) (nms : List String)
    (d : Doc) (tg : String) :
    membersOf (nms.foldl (fun d nm => d.mapVObj nm f) d) tg
      = membersOf d tg := by
  induction nms generalizing d with
  | nil => rfl
  | cons nm rest ih => rw [List.foldl_cons, ih, membersOf_mapVObj]

/-- Folded idempotent view updates are one pointwise map. -/
theorem foldl_mapVObj_objs (f : VObj → VObj) (hf : ∀ v, f (f v) = f v)
    (nms : List String) (d : Doc) :
    (nms.foldl (fun d nm => d.mapVObj nm f) d).objs
      = d.objs.map (fun o =>
          if nms.contains o.name then { o with vobj := f o.vobj } else o) := by
  induction nms generalizing d with
  | nil => simp
  | cons nm rest ih =>
    rw [List.foldl_cons, ih]
    simp only [Doc.mapVObj, List.map_map]
    apply List.map_congr_left
    intro o _
    by_cases h1 : o.name = nm
    · by_cases h2 : rest.contains o.name = true
      · simp [Function.comp, h1, h2, List.contains_cons, hf]
      · simp [Function.comp, h1, h2, List.contains_cons, hf]
    · by_cases h2 : rest.contains o.name = true
      · simp [Function.comp, h1, h2, List.contains_cons, hf]
      · simp [Function.comp, h1, h2, List.contains_cons, hf]

/-- Folded removals are one filter. -/
theorem foldl_remove_objs (nms : List String) (d : Doc) :
    (nms.foldl (fun d nm => d.removeObject nm) d).objs
      = d.objs.filter (fun o => !(nms.contains o.name)) := by
  induction nms generalizing d with
  | nil => simp
  | cons nm rest ih =>
    rw [List.foldl_cons, ih]
    simp only [Doc.removeObject, List.filter_filter]
    apply List.filter_congr
    intro o _
    simp [List.contains_cons]
    by_cases h1 : o.name = nm <;> by_cases h2 : rest.contains o.name = true <;>
      simp [h1, h2]

end DraftCmdSrc

namespace DraftCmdSrc

/-- Membership of a name among the document names. -/
theorem mem_names_iff (d : Doc) (nm : String) :
    nm ∈ d.names ↔ ∃ o, o ∈ d.objs ∧ o.name = nm := by
  simp [Doc.names, List.mem_map]

/-- Bool containment of a string list agrees with membership. -/
theorem contains_iff_mem (l : List String) (s : String) :
    l.contains s = true ↔ s ∈ l := by
  induction l with
  | nil => simp
  | cons a rest ih =>
    simp only [List.contains_cons, List.mem_cons, Bool.or_eq_true,
      beq_iff_eq, ih]

/-- A successful find in a leading block survives an append. -/
theorem find?_append_some {α : Type} (p : α → Bool) (l1 l2 : List α) (x : α)
    (h : l1.find? p = Option.some x) :
    (l1 ++ l2).find? p = Option.some x := by
  induction l1 with
  | nil => simp [List.find?] at h
  | cons a rest ih =>
    rw [List.cons_append]
    by_cases ha : p a = true
    · rw [List.find?_cons_of_pos _ ha] at h ⊢
      exact h
    · rw [List.find?_cons_of_neg _ ha] at h
      rw [List.find?_cons_of_neg _ ha]
      exact ih h

/-- An object is found exactly when its name is live. -/
theorem getObject_isSome_iff (d : Doc) (tg : String) :
    (d.getObject tg).isSome ↔ tg ∈ d.names := by
  simp only [Doc.getObject, List.find?_isSome, Doc.names, List.mem_map,
    beq_iff_eq]

/-- What a successful `make_wire` did. -/
theorem make_wire_spec (d : Doc) (nm : String) (pts : List Vec3) (d' : Doc)
    (h : make_wire d nm pts = Option.some d') :
    d.names.contains nm = false
    ∧ d'.objs = d.objs ++ [⟨nm, VObj.fresh, true, pts, []⟩] := by
  rw [make_wire] at h
  split at h
  · cases h
  · rename_i hc
    simp only [Option.some.injEq] at h
    refine ⟨by simpa using hc, ?_⟩
    rw [← h]

/-- `getObject` ignores appended objects while the name is already live. -/
theorem getObject_append_of_mem (d : Doc) (o0 : DObj) (tg : String)
    (htg : tg ∈ d.names) :
    Doc.getObject ⟨d.objs ++ [o0]⟩ tg = d.getObject tg := by
  have hsome : (d.getObject tg).isSome := (getObject_isSome_iff d tg).2 htg
  cases hf : d.getObject tg with
  | none => rw [hf] at hsome; cases hsome
  | some x =>
    show (d.objs ++ [o0]).find? _ = _
    rw [find?_append_some _ _ _ x hf]

/-- `groupAdd` preserves the name list. -/
theorem names_groupAdd (d : Doc) (g m : String) :
    (d.groupAdd g m).names = d.names := by
  simp only [Doc.names, Doc.groupAdd, List.map_map]
  apply List.map_congr_left
  intro o _
  by_cases h : o.name = g <;> simp [Function.comp, h]

/-- `groupAdd` appends the member to the group it targets. -/
theorem membersOf_groupAdd_self (d : Doc) (g m : String) (o : DObj)
    (h : d.getObject g = Option.some o) :
    membersOf (d.groupAdd g m) g = o.group ++ [m] := by
  have hname : o.name = g := by
    have := List.find?_some h
    simpa using this
  have h' : d.objs.find? (fun o => o.name == g) = Option.some o := h
  show ((Doc.getObject _ g).map DObj.group).getD [] = _
  show (((d.objs.map _).find? _).map DObj.group).getD [] = _
  rw [find?_name_map _ _
    (fun o => by by_cases hh : o.name = g <;> simp [hh]) g, h']
  simp [hname]

/-- Any member after `groupAdd` was a member before or is the new one. -/
theorem membersOf_groupAdd_sub (d : Doc) (g m tg : String) :
    ∀ x ∈ membersOf (d.groupAdd g m) tg, x ∈ membersOf d tg ∨ x = m := by
  intro x hx
  have hrw : membersOf (d.groupAdd g m) tg
      = (((d.objs.find? (fun o => o.name == tg)).map
          (fun o => if o.name = g then { o with group := o.group ++ [m] }
            else o)).map DObj.group).getD [] := by
    show (((d.objs.map _).find? _).map DObj.group).getD [] = _
    rw [find?_name_map _ _
      (fun o => by by_cases hh : o.name = g <;> simp [hh]) tg]
  rw [hrw] at hx
  cases hf : d.objs.find? (fun o => o.name == tg) with
  | none => rw [hf] at hx; cases hx
  | some o =>
    rw [hf] at hx
    have hmem : membersOf d tg = o.group := by
      simp [membersOf, Doc.getObject, hf]
    by_cases hg : o.name = g
    · simp only [hg, if_pos rfl, Option.map_some', Option.getD_some] at hx
      rcases List.mem_append.1 hx with h1 | h1
      · exact Or.inl (hmem ▸ h1)
      · simp at h1
        exact Or.inr h1
    · simp only [if_neg hg, Option.map_some', Option.getD_some] at hx
      exact Or.inl (hmem ▸ hx)

end DraftCmdSrc

namespace DraftCmdSrc

/-- Name list after a draw-style update. -/
theorem names_setDrawStyle (d : Doc) (nm s : String) :
    (d.setDrawStyle nm s).names = d.names := names_mapVObj d nm _

/-- Name list after a line-color update. -/
theorem names_setLineColor (d : Doc) (nm : String) (c : ℚ × ℚ × ℚ) :
    (d.setLineColor nm c).names = d.names := names_mapVObj d nm _

/-- Name list after a selectable update. -/
theorem names_setSelectable (d : Doc) (nm : String) (b : Bool) :
    (d.setSelectable nm b).names = d.names := names_mapVObj d nm _

/-- Members after a draw-style update. -/
theorem membersOf_setDrawStyle (d : Doc) (nm s tg : String) :
    membersOf (d.setDrawStyle nm s) tg = membersOf d tg :=
  membersOf_mapVObj d nm _ tg

/-- Members after a line-color update. -/
theorem membersOf_setLineColor (d : Doc) (nm : String) (c : ℚ × ℚ × ℚ)
    (tg : String) : membersOf (d.setLineColor nm c) tg = membersOf d tg :=
  membersOf_mapVObj d nm _ tg

/-- Members after a selectable update. -/
theorem membersOf_setSelectable (d : Doc) (nm : String) (b : Bool)
    (tg : String) : membersOf (d.setSelectable nm b) tg = membersOf d tg :=
  membersOf_mapVObj d nm _ tg

/-- Lookup ignores an appended object while the name is already live. -/
theorem getObject_extends_of_mem (d d' : Doc) (o0 : DObj) (tg : String)
    (hE : d'.objs = d.objs ++ [o0]) (htg : tg ∈ d.names) :
    d'.getObject tg = d.getObject tg := by
  have hsome : (d.getObject tg).isSome := (getObject_isSome_iff d tg).2 htg
  cases hf : d.getObject tg with
  | none => rw [hf] at hsome; cases hsome
  | some x =>
    show d'.objs.find? _ = _
    rw [hE]
    exact find?_append_some _ _ _ x hf

/-- Adding a member to a live group appends it to the member list. -/
theorem membersOf_groupAdd_live (d : Doc) (g m : String) (hg : g ∈ d.names) :
    membersOf (d.groupAdd g m) g = membersOf d g ++ [m] := by
  have hsome : (d.getObject g).isSome := (getObject_isSome_iff d g).2 hg
  cases hf : d.getObject g with
  | none => rw [hf] at hsome; cases hsome
  | some o =>
    rw [membersOf_groupAdd_self d g m o hf]
    have : membersOf d g = o.group := by
      simp [membersOf, hf]
    rw [this]

/-- What a successful `addControlWire` did: the requested name was fresh,
it is appended to the names and to the target group, the new wire is
visible, and every other object keeps its name and visibility. -/
theorem addControlWire_spec (w : World) (tg nm : String) (pts : List Vec3)
    (w' : World) (htg : tg ∈ w.doc.names)
    (h : addControlWire w tg nm pts = Option.some w') :
    (¬ nm ∈ w.doc.names)
    ∧ w'.doc.names = w.doc.names ++ [nm]
    ∧ membersOf w'.doc tg = membersOf w.doc tg ++ [nm]
    ∧ (∀ o ∈ w'.doc.objs, (o.name = nm ∧ o.vobj.visibility = true)
        ∨ (∃ o₀, o₀ ∈ w.doc.objs ∧ o₀.name = o.name
            ∧ o.vobj.visibility = o₀.vobj.visibility))
    ∧ w'.selection = w.selection
    ∧ w'.alignData = w.alignData := by
  cases hmw : make_wire w.doc nm pts with
  | none =>
    simp only [addControlWire, hmw] at h
    cases h
  | some d1 =>
    simp only [addControlWire, hmw, Option.some.injEq] at h
    obtain ⟨hc, hobjs⟩ := make_wire_spec _ _ _ _ hmw
    have hnm : ¬ nm ∈ w.doc.names := by
      intro hmem
      rw [(contains_iff_mem _ _).2 hmem] at hc
      cases hc
    have hnmtg : ¬ nm = tg := fun he => hnm (he ▸ htg)
    have hnames1 : d1.names = w.doc.names ++ [nm] := by
      simp [Doc.names, hobjs]
    have htg1 : tg ∈ d1.names := by
      rw [hnames1]
      exact List.mem_append_left _ htg
    have hgetObj1 : d1.getObject tg = w.doc.getObject tg :=
      getObject_extends_of_mem w.doc d1 _ tg hobjs htg
    have hm1 : membersOf d1 tg = membersOf w.doc tg := by
      simp [membersOf, hgetObj1]
    subst h
    refine ⟨hnm, ?_, ?_, ?_, rfl, rfl⟩
    · show (Doc.groupAdd _ tg nm).names = _
      rw [names_groupAdd, names_setSelectable, names_setLineColor,
        names_setDrawStyle, hnames1]
    · show membersOf (Doc.groupAdd _ tg nm) tg = _
      rw [membersOf_groupAdd_live _ tg nm
        (by rw [names_setSelectable, names_setLineColor,
          names_setDrawStyle]; exact htg1),
        membersOf_setSelectable, membersOf_setLineColor,
        membersOf_setDrawStyle, hm1]
    · intro o ho
      simp only [Doc.groupAdd, Doc.setSelectable, Doc.setLineColor,
        Doc.setDrawStyle, Doc.mapVObj, List.mem_map] at ho
      obtain ⟨x1, ⟨x2, ⟨x3, ⟨x0, hx0, rfl⟩, rfl⟩, rfl⟩, rfl⟩ := ho
      rw [hobjs] at hx0
      rcases List.mem_append.1 hx0 with hold | hnew
      · have hne : ¬ x0.name = nm := fun he =>
          hnm ((mem_names_iff _ _).2 ⟨x0, hold, he⟩)
        rw [if_neg hne, if_neg hne, if_neg hne]
        by_cases hg : x0.name = tg
        · rw [if_pos hg]
          exact Or.inr ⟨x0, hold, rfl, rfl⟩
        · rw [if_neg hg]
          exact Or.inr ⟨x0, hold, rfl, rfl⟩
      · simp only [List.mem_singleton] at hnew
        subst hnew
        left
        constructor <;> simp [hnmtg, VObj.fresh]

end DraftCmdSrc

namespace DraftCmdSrc

/-- No change evolves. -/
theorem docEvolves_refl (d : Doc) : DocEvolves d d :=
  ⟨fun _ h => h, fun _ hm => Or.inl hm⟩

/-- Evolution composes. -/
theorem docEvolves_trans {d1 d2 d3 : Doc}
    (h12 : DocEvolves d1 d2) (h23 : DocEvolves d2 d3) : DocEvolves d1 d3 := by
  obtain ⟨n12, m12⟩ := h12
  obtain ⟨n23, m23⟩ := h23
  refine ⟨fun nm h => n23 nm (n12 nm h), ?_⟩
  intro m hm
  rcases m23 m hm with h2 | h2
  · exact m12 m h2
  · exact Or.inr (fun hc => h2 (n12 m hc))

/-- Folded view updates evolve the document trivially. -/
theorem docEvolves_foldl_mapVObj (f : VObj → VObj) (nms : List String)
    (d : Doc) : DocEvolves d (nms.foldl (fun d nm => d.mapVObj nm f) d) := by
  refine ⟨?_, ?_⟩
  · intro x hx
    rw [names_foldl_mapVObj]
    exact hx
  · intro m hm
    rw [membersOf_foldl_mapVObj] at hm
    exact Or.inl hm

/-- A control wire creation evolves the document: the one new temp member
is a previously unused name. -/
theorem addControlWire_evolves (w : World) (nm : String) (pts : List Vec3)
    (w' : World) (htg : "Temp" ∈ w.doc.names)
    (h : addControlWire w "Temp" nm pts = Option.some w') :
    DocEvolves w.doc w'.doc ∧ "Temp" ∈ w'.doc.names := by
  obtain ⟨hnm, hnames, hmem, _, _, _⟩ :=
    addControlWire_spec w "Temp" nm pts w' htg h
  refine ⟨⟨?_, ?_⟩, ?_⟩
  · intro x hx
    rw [hnames]
    exact List.mem_append_left _ hx
  · intro m hm
    rw [hmem] at hm
    rcases List.mem_append.1 hm with h1 | h1
    · exact Or.inl h1
    · simp only [List.mem_singleton] at h1
      subst h1
      exact Or.inr hnm
  · rw [hnames]
    exact List.mem_append_left _ htg

/-- Showing control geometry evolves the document. -/
theorem show_control_evolves (w : World) (c : CmdState) (w' : World)
    (htg : c.temp_group = Option.some "Temp")
    (htgmem : "Temp" ∈ w.doc.names)
    (h : show_control_geometry w c = Option.some w') :
    DocEvolves w.doc w'.doc := by
  rw [show_control_geometry] at h
  cases hg : get_control_geometry w c with
  | none =>
    simp only [hg] at h
    cases h
  | some cg =>
    simp only [hg] at h
    by_cases htr : pyTruthyListOpt cg = true
    · rw [if_pos htr] at h
      simp only [Option.some.injEq] at h
      subst h
      exact docEvolves_foldl_mapVObj _ _ _
    · rw [if_neg htr] at h
      cases hgg : AlignmentSrc.get_geometry w.alignData c.curve_hash with
      | noneFound =>
        simp only [hgg, Option.some.injEq] at h
        subst h
        exact docEvolves_refl _
      | all geo =>
        simp only [hgg] at h
        by_cases hge : geo = []
        · rw [if_pos hge] at h
          simp only [Option.some.injEq] at h
          subst h
          exact docEvolves_refl _
        · rw [if_neg hge] at h
          cases h
      | one curve =>
        simp only [hgg] at h
        cases hch : c.curve_hash with
        | none =>
          simp only [hch, htg] at h
          cases h
        | some hh =>
          simp only [hch, htg] at h
          cases h1 : addControlWire w "Temp"
              ("rad_in_" ++ toString hh) [curve.center, curve.startPt] with
          | none =>
            simp only [h1] at h
            cases h
          | some w1 =>
            simp only [h1] at h
            obtain ⟨e1, m1⟩ := addControlWire_evolves w _ _ w1 htgmem h1
            cases h2 : addControlWire w1 "Temp"
                ("rad_out_" ++ toString hh) [curve.center, curve.endPt] with
            | none =>
              simp only [h2] at h
              cases h
            | some w2 =>
              simp only [h2] at h
              obtain ⟨e2, m2⟩ := addControlWire_evolves w1 _ _ w2 m1 h2
              cases h3 : addControlWire w2 "Temp"
                  ("tan_in_" ++ toString hh) [curve.piPt, curve.startPt] with
              | none =>
                simp only [h3] at h
                cases h
              | some w3 =>
                simp only [h3] at h
                obtain ⟨e3, m3⟩ := addControlWire_evolves w2 _ _ w3 m2 h3
                obtain ⟨e4, _⟩ := addControlWire_evolves w3 _ _ w' m3 h
                exact docEvolves_trans e1
                  (docEvolves_trans e2 (docEvolves_trans e3 e4))

/-- Hiding control geometry evolves the document. -/
theorem hide_control_evolves (w : World) (c : CmdState) (w' : World)
    (h : hide_control_geometry w c = Option.some w') :
    DocEvolves w.doc w'.doc := by
  rw [hide_control_geometry] at h
  cases hg : get_control_geometry w c with
  | none =>
    simp only [hg] at h
    cases h
  | some cg =>
    simp only [hg] at h
    cases cg with
    | none => simp at h
    | some names =>
      simp only [Option.some.injEq] at h
      subst h
      exact docEvolves_foldl_mapVObj _ _ _

end DraftCmdSrc

namespace DraftCmdSrc

open AlignmentSrc

/-- A resolved mouse move only grows the document with fresh-named temp
members and never touches the cached record or temp group. -/
theorem location_resolved_step (w : World) (c : CmdState)
    (ch : Option Int) (sel1 : List (String × List String))
    (w' : World) (c' : CmdState)
    (htg : c.temp_group = Option.some "Temp")
    (htgm : "Temp" ∈ w.doc.names)
    (h : location_resolved w c ch sel1 = Option.some (w', c')) :
    DocEvolves w.doc w'.doc
    ∧ c'.selectable_objects = c.selectable_objects
    ∧ c'.temp_group = c.temp_group := by
  rw [location_resolved.eq_def] at h
  by_cases htr : pyTruthyIntOpt ch = true
  · rw [if_pos htr] at h
    cases ch with
    | none => simp [pyTruthyIntOpt] at htr
    | some hh =>
      replace h : (if c.curve_hash ≠ Option.some hh then
          match show_control_geometry { w with selection := sel1 }
              { c with curve_hash := Option.some hh } with
          | Option.none => Option.none
          | Option.some w2 =>
            Option.some (w2, { c with curve_hash := Option.some hh })
        else Option.some ({ w with selection := sel1 }, c))
          = Option.some (w', c') := h
      by_cases hne : c.curve_hash = Option.some hh
      · rw [if_neg (not_not_intro hne)] at h
        simp only [Option.some.injEq, Prod.mk.injEq] at h
        obtain ⟨hw, hc⟩ := h
        subst hw
        subst hc
        exact ⟨docEvolves_refl w.doc, rfl, rfl⟩
      · rw [if_pos hne] at h
        cases hsh : show_control_geometry { w with selection := sel1 }
            { c with curve_hash := Option.some hh } with
        | none =>
          simp only [hsh] at h
          cases h
        | some w2 =>
          simp only [hsh, Option.some.injEq, Prod.mk.injEq] at h
          obtain ⟨hw, hc⟩ := h
          subst hw
          subst hc
          refine ⟨?_, rfl, rfl⟩
          exact show_control_evolves { w with selection := sel1 }
            { c with curve_hash := Option.some hh } w2 htg htgm hsh
  · rw [if_neg htr] at h
    by_cases hch : pyTruthyIntOpt c.curve_hash = true
    · rw [if_pos hch] at h
      have key : ∀ wIn : World, wIn.doc = w.doc →
          (match hide_control_geometry wIn c with
            | Option.none => Option.none
            | Option.some w3 =>
              Option.some (w3, { c with curve_hash := Option.none }))
            = Option.some (w', c') →
          DocEvolves w.doc w'.doc
          ∧ c'.selectable_objects = c.selectable_objects
          ∧ c'.temp_group = c.temp_group := by
        intro wIn hdoc hmm
        cases hhid : hide_control_geometry wIn c with
        | none =>
          simp only [hhid] at hmm
          cases hmm
        | some w3 =>
          simp only [hhid, Option.some.injEq, Prod.mk.injEq] at hmm
          obtain ⟨hw, hc⟩ := hmm
          subst hw
          subst hc
          refine ⟨?_, rfl, rfl⟩
          have := hide_control_evolves wIn c _ hhid
          rw [hdoc] at this
          exact this
      exact key _ (by split <;> rfl) h
    · rw [if_neg hch] at h
      simp only [Option.some.injEq, Prod.mk.injEq] at h
      obtain ⟨hw, hc⟩ := h
      subst hc
      refine ⟨?_, rfl, rfl⟩
      rw [← hw]
      split <;> exact docEvolves_refl _

/-- A mouse-move event only grows the document and keeps the cached
fields. -/
theorem action_location_step (w : World) (c : CmdState)
    (info : Option (String × String)) (w' : World) (c' : CmdState)
    (htg : c.temp_group = Option.some "Temp")
    (htgm : "Temp" ∈ w.doc.names)
    (hact : action w c (SoEvent.location info) = Option.some (w', c')) :
    DocEvolves w.doc w'.doc
    ∧ c'.selectable_objects = c.selectable_objects
    ∧ c'.temp_group = c.temp_group := by
  cases info with
  | none =>
    simp only [action] at hact
    exact location_resolved_step w c _ _ w' c' htg htgm hact
  | some oc =>
    obtain ⟨objName, comp⟩ := oc
    cases hdn : c.alignment_draft with
    | none =>
      simp only [action, hdn] at hact
      cases hact
    | some dn =>
      cases hed : c.edges with
      | none =>
        by_cases ho : objName = dn
        · simp only [action, hdn, hed, if_pos ho] at hact
          cases hact
        · simp only [action, hdn, hed, if_neg ho] at hact
          exact location_resolved_step w c _ _ w' c' htg htgm hact
      | some edges =>
        simp only [action, hdn, hed] at hact
        exact location_resolved_step w c _ _ w' c' htg htgm hact

/-- Benign events preserve the command invariant. -/
theorem action_preserves_inv (R : List String) (w : World) (c : CmdState)
    (ev : SoEvent) (w' : World) (c' : CmdState)
    (hInv : CmdInv R w c) (hben : BenignEvent ev)
    (hact : action w c ev = Option.some (w', c')) : CmdInv R w' c' := by
  obtain ⟨hso, htg, htgm, hrec, hTnotR, hmem⟩ := hInv
  cases ev with
  | keyboard key =>
    have hne : ¬ key = "ESCAPE" := hben
    simp only [action, if_neg hne, Option.some.injEq, Prod.mk.injEq] at hact
    obtain ⟨h1, h2⟩ := hact
    subst h1
    subst h2
    exact ⟨hso, htg, htgm, hrec, hTnotR, hmem⟩
  | location info =>
    obtain ⟨hev, hso', htg'⟩ :=
      action_location_step w c info w' c' htg htgm hact
    refine ⟨hso'.trans hso, htg'.trans htg, hev.1 _ htgm,
      fun nm hnm => hev.1 _ (hrec nm hnm), hTnotR, ?_⟩
    intro m hm
    rcases hev.2 m hm with h1 | h1
    · exact hmem m h1
    · exact fun hR => h1 (hrec m hR)

/-- Runs of benign events preserve the command invariant. -/
theorem steps_preserve_inv (R : List String) (evs : List SoEvent)
    (w : World) (c : CmdState) (w' : World) (c' : CmdState)
    (hInv : CmdInv R w c) (hben : ∀ ev ∈ evs, BenignEvent ev)
    (hsteps : steps evs w c = Option.some (w', c')) : CmdInv R w' c' := by
  induction evs generalizing w c with
  | nil =>
    simp only [steps, Option.some.injEq, Prod.mk.injEq] at hsteps
    obtain ⟨h1, h2⟩ := hsteps
    subst h1
    subst h2
    exact hInv
  | cons ev rest ih =>
    rw [steps] at hsteps
    cases hact : action w c ev with
    | none =>
      rw [hact] at hsteps
      cases hsteps
    | some p =>
      obtain ⟨w1, c1⟩ := p
      rw [hact] at hsteps
      exact ih w1 c1
        (action_preserves_inv R w c ev w1 c1 hInv
          (hben ev (List.mem_cons_self ev rest)) hact)
        (fun e he => hben e (List.mem_cons_of_mem ev he))
        hsteps

end DraftCmdSrc

namespace DraftCmdSrc

open AlignmentSrc

/-- The `Selectable` loop preserves the name list. -/
theorem names_setSelectableAll (d : Doc) (nms : List String) (b : Bool) :
    (d.setSelectableAll nms b).names = d.names :=
  names_foldl_mapVObj (fun v => { v with selectable := b }) nms d

/-- The `Visibility` loop preserves the name list. -/
theorem names_setVisibilityAll (d : Doc) (nms : List String) (b : Bool) :
    (d.setVisibilityAll nms b).names = d.names :=
  names_foldl_mapVObj (fun v => { v with visibility := b }) nms d

/-- The `Selectable` loop preserves every group's member list. -/
theorem membersOf_setSelectableAll (d : Doc) (nms : List String) (b : Bool)
    (tg : String) :
    membersOf (d.setSelectableAll nms b) tg = membersOf d tg :=
  membersOf_foldl_mapVObj (fun v => { v with selectable := b }) nms d tg

/-- The `Visibility` loop preserves every group's member list. -/
theorem membersOf_setVisibilityAll (d : Doc) (nms : List String) (b : Bool)
    (tg : String) :
    membersOf (d.setVisibilityAll nms b) tg = membersOf d tg :=
  membersOf_foldl_mapVObj (fun v => { v with visibility := b }) nms d tg

/-- The `Selectable` loop is one pointwise map over the objects. -/
theorem objs_setSelectableAll (d : Doc) (nms : List String) (b : Bool) :
    (d.setSelectableAll nms b).objs
      = d.objs.map (fun o => if nms.contains o.name
          then { o with vobj := { o.vobj with selectable := b } } else o) :=
  foldl_mapVObj_objs (fun v => { v with selectable := b }) (fun v => rfl)
    nms d

/-- The `Visibility` loop is one pointwise map over the objects. -/
theorem objs_setVisibilityAll (d : Doc) (nms : List String) (b : Bool) :
    (d.setVisibilityAll nms b).objs
      = d.objs.map (fun o => if nms.contains o.name
          then { o with vobj := { o.vobj with visibility := b } } else o) :=
  foldl_mapVObj_objs (fun v => { v with visibility := b }) (fun v => rfl)
    nms d

/-- After the `Visibility` loop, every object found under a listed name
carries the requested flag. -/
theorem visibility_after_setAll (d : Doc) (nms : List String) (b : Bool)
    (m : String) (hm : m ∈ nms) (o : DObj)
    (ho : (d.setVisibilityAll nms b).getObject m = Option.some o) :
    o.vobj.visibility = b := by
  have homem : o ∈ (d.setVisibilityAll nms b).objs :=
    List.mem_of_find?_eq_some ho
  have honame : o.name = m := by
    have := List.find?_some ho
    simpa using this
  rw [objs_setVisibilityAll] at homem
  rcases List.mem_map.1 homem with ⟨o1, _, heq⟩
  have hname1 : o1.name = m := by
    rw [← honame, ← heq]
    by_cases hc : nms.contains o1.name = true
    · rw [if_pos hc]
    · rw [if_neg hc]
  have hcont : nms.contains o1.name = true := by
    rw [hname1]
    exact (contains_iff_mem _ _).2 hm
  rw [← heq, if_pos hcont]

/-- After the `Selectable` loop, every object found under a listed name
carries the requested flag. -/
theorem selectable_after_setAll (d : Doc) (nms : List String) (b : Bool)
    (m : String) (hm : m ∈ nms) (o : DObj)
    (ho : (d.setSelectableAll nms b).getObject m = Option.some o) :
    o.vobj.selectable = b := by
  have homem : o ∈ (d.setSelectableAll nms b).objs :=
    List.mem_of_find?_eq_some ho
  have honame : o.name = m := by
    have := List.find?_some ho
    simpa using this
  rw [objs_setSelectableAll] at homem
  rcases List.mem_map.1 homem with ⟨o1, _, heq⟩
  have hname1 : o1.name = m := by
    rw [← honame, ← heq]
    by_cases hc : nms.contains o1.name = true
    · rw [if_pos hc]
    · rw [if_neg hc]
  have hcont : nms.contains o1.name = true := by
    rw [hname1]
    exact (contains_iff_mem _ _).2 hm
  rw [← heq, if_pos hcont]

/-- What a successful `addGroup` did. -/
theorem addGroup_spec (d : Doc) (nm : String) (d' : Doc)
    (h : addGroup d nm = Option.some d') :
    d.names.contains nm = false
    ∧ d'.objs = d.objs ++ [⟨nm, VObj.fresh, false, [], []⟩] := by
  rw [addGroup] at h
  split at h
  · cases h
  · rename_i hc
    simp only [Option.some.injEq] at h
    refine ⟨by simpa using hc, ?_⟩
    rw [← h]

/-- Appending one object appends its name to the document names. -/
theorem names_of_append (d d' : Doc) (o0 : DObj)
    (h : d'.objs = d.objs ++ [o0]) : d'.names = d.names ++ [o0.name] := by
  show d'.objs.map DObj.name = d.objs.map DObj.name ++ [o0.name]
  rw [h, List.map_append]
  rfl

/-- Removing a member list and then the group itself is one pass of
nested filters. -/
theorem objs_remove_members_group (d0 : Doc) (M : List String)
    (tg : String) :
    (Doc.removeObject (M.foldl (fun d nm => d.removeObject nm) d0) tg).objs
      = (d0.objs.filter (fun o => !(M.contains o.name))).filter
          (fun o => o.name != tg) := by
  show ((M.foldl (fun d nm => d.removeObject nm) d0).objs.filter
      (fun o => o.name != tg)) = _
  rw [foldl_remove_objs]

/-- `addControlWire` only changes the document. -/
theorem addControlWire_selection (w : World) (tg nm : String)
    (pts : List Vec3) (w' : World)
    (h : addControlWire w tg nm pts = Option.some w') :
    w'.selection = w.selection ∧ w'.alignData = w.alignData := by
  cases hmw : make_wire w.doc nm pts with
  | none => simp only [addControlWire, hmw] at h; cases h
  | some d1 =>
    simp only [addControlWire, hmw, Option.some.injEq] at h
    rw [← h]
    exact ⟨rfl, rfl⟩

/-- `show_control_geometry` only changes the document. -/
theorem show_control_selection (w : World) (c : CmdState) (w' : World)
    (h : show_control_geometry w c = Option.some w') :
    w'.selection = w.selection := by
  rw [show_control_geometry.eq_def] at h
  cases hgc : get_control_geometry w c with
  | none => simp only [hgc] at h; cases h
  | some cg =>
    simp only [hgc] at h
    by_cases htr : pyTruthyListOpt cg = true
    · rw [if_pos htr] at h
      simp only [Option.some.injEq] at h
      rw [← h]
    · rw [if_neg htr] at h
      cases hg : get_geometry w.alignData c.curve_hash with
      | noneFound =>
        simp only [hg, Option.some.injEq] at h
        rw [← h]
      | all geo =>
        simp only [hg] at h
        by_cases hge : geo = []
        · rw [if_pos hge] at h
          simp only [Option.some.injEq] at h
          rw [← h]
        · rw [if_neg hge] at h
          cases h
      | one curve =>
        simp only [hg] at h
        cases hch2 : c.curve_hash with
        | none => simp only [hch2] at h; cases h
        | some hh =>
          cases htg2 : c.temp_group with
          | none => simp only [hch2, htg2] at h; cases h
          | some tg =>
            simp only [hch2, htg2] at h
            cases h1 : addControlWire w tg ("rad_in_" ++ toString hh)
                [curve.center, curve.startPt] with
            | none => simp only [h1] at h; cases h
            | some u1 =>
              simp only [h1] at h
              cases h2 : addControlWire u1 tg ("rad_out_" ++ toString hh)
                  [curve.center, curve.endPt] with
              | none => simp only [h2] at h; cases h
              | some u2 =>
                simp only [h2] at h
                cases h3 : addControlWire u2 tg ("tan_in_" ++ toString hh)
                    [curve.piPt, curve.startPt] with
                | none => simp only [h3] at h; cases h
                | some u3 =>
                  simp only [h3] at h
                  obtain ⟨hs4, _⟩ := addControlWire_selection u3 tg _ _ w' h
                  obtain ⟨hs3, _⟩ := addControlWire_selection u2 tg _ _ u3 h3
                  obtain ⟨hs2, _⟩ := addControlWire_selection u1 tg _ _ u2 h2
                  obtain ⟨hs1, _⟩ := addControlWire_selection w tg _ _ u1 h1
                  rw [hs4, hs3, hs2, hs1]

end DraftCmdSrc

namespace DraftCmdSrc

/-- Activation establishes the command invariant over the record of the
selectable view objects it clears. -/
theorem activated_establishes (uuidName : String)
    (edges : List (Int × List String)) (w : World) (c : CmdState)
    (w1 : World) (c1 : CmdState) (h0 : c.is_activated = false)
    (h : Activated uuidName edges w c = Option.some (w1, c1)) :
    CmdInv (recordedOf w) w1 c1 := by
  rw [Activated.eq_def] at h
  rw [if_neg (by rw [h0]; exact Bool.false_ne_true)] at h
  cases hal : c.alignment with
  | none => simp only [hal] at h; cases h
  | some alName =>
    simp only [hal] at h
    cases hob : w.doc.getObject alName with
    | none => simp only [hob] at h; cases h
    | some alObj =>
      simp only [hob] at h
      cases hg : addGroup
          (w.doc.setSelectableAll
            ((w.doc.objs.filter DObj.hasSelectable).map DObj.name) false)
          "Temp" with
      | none => simp only [hg] at h; cases h
      | some d2 =>
        simp only [hg] at h
        cases hmw : make_wire d2 uuidName
            (alObj.points.map (fun p => p.withZ (1 / 10))) with
        | none => simp only [hmw] at h; cases h
        | some d3 =>
          simp only [hmw, Option.some.injEq, Prod.mk.injEq] at h
          obtain ⟨hw, hc⟩ := h
          subst hw
          subst hc
          obtain ⟨hfrT, hd2⟩ := addGroup_spec _ _ _ hg
          obtain ⟨hfrU, hd3⟩ := make_wire_spec _ _ _ _ hmw
          have hd1names :
              (w.doc.setSelectableAll
                ((w.doc.objs.filter DObj.hasSelectable).map DObj.name)
                false).names = w.doc.names :=
            names_setSelectableAll _ _ _
          have hRsub : ∀ nm ∈ recordedOf w, nm ∈ w.doc.names := by
            intro nm hnm
            rcases List.mem_map.1 hnm with ⟨o, ho, rfl⟩
            exact (mem_names_iff _ _).2 ⟨o, (List.mem_filter.1 ho).1, rfl⟩
          have hTnotd1 : "Temp" ∉ w.doc.names := by
            intro hmem
            rw [(contains_iff_mem _ _).2 (by rw [hd1names]; exact hmem)]
              at hfrT
            cases hfrT
          have hd2names : d2.names = w.doc.names ++ ["Temp"] := by
            rw [names_of_append _ _ _ hd2, hd1names]
          have hUnotd2 : uuidName ∉ d2.names := by
            intro hmem
            rw [(contains_iff_mem _ _).2 hmem] at hfrU
            cases hfrU
          have hTd2 : "Temp" ∈ d2.names := by
            rw [hd2names]; simp
          have hd3names : d3.names = (w.doc.names ++ ["Temp"]) ++ [uuidName] := by
            rw [names_of_append _ _ _ hd3, hd2names]
          have hTd3 : "Temp" ∈ d3.names := by
            rw [hd3names]; simp
          have hm2 : membersOf d2 "Temp" = [] := by
            have hfind : (w.doc.setSelectableAll
                ((w.doc.objs.filter DObj.hasSelectable).map DObj.name)
                false).objs.find? (fun o => o.name == "Temp")
                = Option.none := by
              rw [List.find?_eq_none]
              intro o ho
              simp only [beq_iff_eq]
              intro he
              exact hTnotd1 (by
                rw [← hd1names]
                exact (mem_names_iff _ _).2 ⟨o, ho, he⟩)
            have hget : d2.getObject "Temp"
                = Option.some ⟨"Temp", VObj.fresh, false, [], []⟩ := by
              show d2.objs.find? (fun o => o.name == "Temp") = _
              rw [hd2, PointGroupSrc.find?_append_of_none _ _ _ hfind]
              rfl
            simp [membersOf, hget]
          have hm3 : membersOf d3 "Temp" = [] := by
            unfold membersOf
            rw [getObject_extends_of_mem d2 d3 _ "Temp" hd3 hTd2]
            exact hm2
          refine ⟨rfl, rfl, ?_, ?_, ?_, ?_⟩
          · dsimp only
            rw [names_setSelectable, names_setDrawStyle, names_setLineColor,
              names_groupAdd, hd3names]
            simp
          · intro nm hnm
            dsimp only
            rw [names_setSelectable, names_setDrawStyle, names_setLineColor,
              names_groupAdd, hd3names]
            exact List.mem_append_left _
              (List.mem_append_left _ (hRsub nm hnm))
          · intro hmem
            exact hTnotd1 (hRsub _ hmem)
          · dsimp only
            rw [membersOf_setSelectable, membersOf_setDrawStyle,
              membersOf_setLineColor,
              membersOf_groupAdd_live d3 "Temp" uuidName hTd3, hm3]
            intro m hm
            simp only [List.nil_append, List.mem_singleton] at hm
            subst hm
            intro hmem
            exact hUnotd2 (by
              rw [hd2names]
              exact List.mem_append_left _ (hRsub _ hmem))

end DraftCmdSrc

namespace DraftCmdSrc

/-- Under the command invariant, `finish` deactivates the command, removes
the temp group and all its members from the document, and restores
`Selectable` on every recorded view object, which stays live. -/
theorem finish_post (R : List String) (w : World) (c : CmdState)
    (hInv : CmdInv R w c) :
    (finish w c).2.is_activated = false
    ∧ "Temp" ∉ (finish w c).1.doc.names
    ∧ (∀ m ∈ membersOf w.doc "Temp", m ∉ (finish w c).1.doc.names)
    ∧ (∀ nm ∈ R, ∃ o, (finish w c).1.doc.getObject nm = Option.some o
        ∧ o.vobj.selectable = true) := by
  obtain ⟨hso, htg, htgm, hrec, hTnotR, hmemR⟩ := hInv
  obtain ⟨d0, hd0n, hd0m, hfin⟩ :
      ∃ d0 : Doc, d0.names = w.doc.names
        ∧ membersOf d0 "Temp" = membersOf w.doc "Temp"
        ∧ (finish w c).1.doc
          = Doc.setSelectableAll
              (Doc.removeObject
                ((membersOf d0 "Temp").foldl
                  (fun d nm => d.removeObject nm) d0) "Temp") R true := by
    cases hal : c.alignment with
    | none =>
      refine ⟨w.doc, rfl, rfl, ?_⟩
      simp only [finish, hal, htg, hso]
    | some an =>
      refine ⟨((w.doc.setLineColor an (0, 0, 0)).setDrawStyle an
          "Solid").setSelectable an true, ?_, ?_, ?_⟩
      · rw [names_setSelectable, names_setDrawStyle, names_setLineColor]
      · rw [membersOf_setSelectable, membersOf_setDrawStyle,
          membersOf_setLineColor]
      · simp only [finish, hal, htg, hso]
  refine ⟨rfl, ?_, ?_, ?_⟩
  · rw [hfin, names_setSelectableAll]
    intro hmem
    rcases (mem_names_iff _ _).1 hmem with ⟨o, ho, hname⟩
    rw [objs_remove_members_group] at ho
    have h2 := (List.mem_filter.1 ho).2
    rw [hname] at h2
    simp at h2
  · intro m hm
    rw [hfin, names_setSelectableAll]
    intro hmem
    rcases (mem_names_iff _ _).1 hmem with ⟨o, ho, hname⟩
    rw [objs_remove_members_group] at ho
    have h1 := List.mem_filter.1 (List.mem_filter.1 ho).1
    have h2 := h1.2
    have hcc : (membersOf d0 "Temp").contains o.name = true := by
      rw [hname]
      exact (contains_iff_mem _ _).2 (by rw [hd0m]; exact hm)
    rw [hcc] at h2
    cases h2
  · intro nm hnm
    have hnm0 : nm ∈ d0.names := by
      rw [hd0n]
      exact hrec nm hnm
    rcases (mem_names_iff _ _).1 hnm0 with ⟨o0, ho0, hname0⟩
    have hnM : ¬ (membersOf d0 "Temp").contains o0.name = true := by
      rw [hname0]
      intro hcc
      exact hmemR nm (by rw [← hd0m]; exact (contains_iff_mem _ _).1 hcc) hnm
    have hkeep : o0 ∈ (d0.objs.filter
        (fun o => !((membersOf d0 "Temp").contains o.name))).filter
        (fun o => o.name != "Temp") := by
      refine List.mem_filter.2 ⟨List.mem_filter.2 ⟨ho0, ?_⟩, ?_⟩
      · show (!((membersOf d0 "Temp").contains o0.name)) = true
        cases hcc : (membersOf d0 "Temp").contains o0.name
        · rfl
        · exact absurd hcc hnM
      · show (o0.name != "Temp") = true
        rw [hname0]
        simp only [bne_iff_ne, ne_eq]
        intro hEq
        exact hTnotR (hEq ▸ hnm)
    have hnmfin : nm ∈ (finish w c).1.doc.names := by
      rw [hfin, names_setSelectableAll, mem_names_iff]
      exact ⟨o0, by rw [objs_remove_members_group]; exact hkeep, hname0⟩
    have hsome : ((finish w c).1.doc.getObject nm).isSome :=
      (getObject_isSome_iff _ _).2 hnmfin
    cases hf : (finish w c).1.doc.getObject nm with
    | none => rw [hf] at hsome; cases hsome
    | some o =>
      refine ⟨o, rfl, ?_⟩
      rw [hfin] at hf
      exact selectable_after_setAll _ R true nm hnm o hf

end DraftCmdSrc

namespace DraftCmdSrc

/-- C5: after activation and any run of benign intermediate events, an
`ESCAPE` keyboard event in `action` invokes `finish()`, after which
`is_activated` is `False`, the temporary group and every object in it have
been removed from the document, and every view object whose `Selectable`
flag was cleared on activation has `Selectable` restored to `True`. -/
theorem C5_escape_finishes (uuidName : String)
    (edges : List (Int × List String)) (evs : List SoEvent)
    (w0 w1 w2 : World) (c0 c1 c2 : CmdState)
    (h0 : c0.is_activated = false)
    (hAct : Activated uuidName edges w0 c0 = Option.some (w1, c1))
    (hben : ∀ ev ∈ evs, BenignEvent ev)
    (hsteps : steps evs w1 c1 = Option.some (w2, c2)) :
    action w2 c2 (SoEvent.keyboard "ESCAPE") = Option.some (finish w2 c2)
    ∧ (finish w2 c2).2.is_activated = false
    ∧ "Temp" ∉ (finish w2 c2).1.doc.names
    ∧ (∀ m ∈ membersOf w2.doc "Temp", m ∉ (finish w2 c2).1.doc.names)
    ∧ (∀ nm ∈ recordedOf w0, ∃ o,
        (finish w2 c2).1.doc.getObject nm = Option.some o
        ∧ o.vobj.selectable = true) := by
  have hInv1 := activated_establishes uuidName edges w0 c0 w1 c1 h0 hAct
  have hInv2 := steps_preserve_inv (recordedOf w0) evs w1 c1 w2 c2 hInv1
    hben hsteps
  obtain ⟨hA, hB, hC, hD⟩ := finish_post (recordedOf w0) w2 c2 hInv2
  exact ⟨rfl, hA, hB, hC, hD⟩

unseal Rat.add Rat.sub Rat.mul Rat.inv in
/-- C5 at a concrete activation over a one-alignment document with no
intermediate events: every hypothesis of the escape theorem holds and its
conclusion follows at this input. -/
theorem C5_escape_finishes_witness :
    demoCmd.is_activated = false
    ∧ Activated "U1" [] demoWorld demoCmd
        = Option.some (demoWorld1, demoCmd1)
    ∧ (∀ ev ∈ ([] : List SoEvent), BenignEvent ev)
    ∧ steps [] demoWorld1 demoCmd1 = Option.some (demoWorld1, demoCmd1)
    ∧ (action demoWorld1 demoCmd1 (SoEvent.keyboard "ESCAPE")
        = Option.some (finish demoWorld1 demoCmd1)
      ∧ (finish demoWorld1 demoCmd1).2.is_activated = false
      ∧ "Temp" ∉ (finish demoWorld1 demoCmd1).1.doc.names
      ∧ (∀ m ∈ membersOf demoWorld1.doc "Temp",
          m ∉ (finish demoWorld1 demoCmd1).1.doc.names)
      ∧ (∀ nm ∈ recordedOf demoWorld, ∃ o,
          (finish demoWorld1 demoCmd1).1.doc.getObject nm = Option.some o
          ∧ o.vobj.selectable = true)) :=
  ⟨rfl, by decide, fun ev hev => absurd hev (List.not_mem_nil ev), rfl,
   C5_escape_finishes "U1" [] [] demoWorld demoWorld1 demoWorld1
     demoCmd demoCmd1 demoCmd1 rfl (by decide)
     (fun ev hev => absurd hev (List.not_mem_nil ev)) rfl⟩

end DraftCmdSrc

namespace DraftCmdSrc

/-- C6 counterexample: with a two-edge curve of hash `0` cached in the
edge dict, a mouse move onto one of its edges resolves that curve in
`select_curve_edges`, yet `action` treats the falsy hash `0` as no curve
at all: `curve_hash` is not updated, no control geometry is shown, and the
handler returns the state unchanged. -/
theorem C6_counterexample :
    select_curve_edges "D" [(0, ["Edge1", "Edge2"])] "Edge1"
      = (Option.some 0, [("D", ["Edge1", "Edge2"])])
    ∧ action cexWorld cexCmd (SoEvent.location (Option.some ("D", "Edge1")))
      = Option.some (cexWorld, cexCmd)
    ∧ cexCmd.curve_hash = Option.none :=
  ⟨by decide, by decide, rfl⟩

end DraftCmdSrc

namespace DraftCmdSrc

open AlignmentSrc

/-- C6 (amended): with the draft and edge dict cached and a current hash
that is never the falsy `0`, a mouse move in `action` that resolves no
truthy curve clears the selection, resets `curve_hash` to `None`, and
hides every control-geometry member of the current curve, while a move
resolving a different curve with a truthy hash updates `curve_hash` to it,
installs that curve's edges as the selection, and re-shows the curve's
hidden control geometry. -/
theorem C6_curve_hash_tracking (w : World) (c : CmdState) (dn : String)
    (edges : List (Int × List String)) (objName comp : String)
    (ch : Option Int) (sel1 : List (String × List String))
    (w' : World) (c' : CmdState)
    (hdn : c.alignment_draft = Option.some dn)
    (hed : c.edges = Option.some edges)
    (hch0 : c.curve_hash ≠ Option.some 0)
    (hres : resolve_selection dn edges w.selection
        (Option.some (objName, comp)) = (ch, sel1))
    (hact : action w c (SoEvent.location (Option.some (objName, comp)))
        = Option.some (w', c')) :
    ((ch = Option.none ∨ ch = Option.some 0) →
      c'.curve_hash = Option.none
      ∧ w'.selection = []
      ∧ (∀ h1, c.curve_hash = Option.some h1 →
          ∀ tg, c.temp_group = Option.some tg →
          ∀ m ∈ membersOf w.doc tg, strHas m (toString h1) = true →
          ∀ o, w'.doc.getObject m = Option.some o →
            o.vobj.visibility = false))
    ∧ (∀ hh, ch = Option.some hh → hh ≠ 0 →
        c.curve_hash ≠ Option.some hh →
        c'.curve_hash = Option.some hh
        ∧ w'.selection = sel1
        ∧ (∀ cg, get_control_geometry { w with selection := sel1 }
              { c with curve_hash := Option.some hh }
              = Option.some (Option.some cg) →
            cg ≠ [] → ∀ m ∈ cg, ∀ o,
              w'.doc.getObject m = Option.some o →
              o.vobj.visibility = true)) := by
  have h : location_resolved w c ch sel1 = Option.some (w', c') := by
    simp only [action, hdn, hed, hres] at hact
    exact hact
  constructor
  · intro hfalsy
    have htr : ¬ pyTruthyIntOpt ch = true := by
      rcases hfalsy with rfl | rfl <;> simp [pyTruthyIntOpt]
    rw [location_resolved.eq_def] at h
    rw [if_neg htr] at h
    by_cases hcht : pyTruthyIntOpt c.curve_hash = true
    · rw [if_pos hcht] at h
      have key : ∀ wIn : World,
          (match hide_control_geometry wIn c with
            | Option.none => Option.none
            | Option.some w3 =>
              Option.some (w3, { c with curve_hash := Option.none }))
            = Option.some (w', c') →
          wIn.doc = w.doc → wIn.selection = [] →
          c'.curve_hash = Option.none
          ∧ w'.selection = []
          ∧ (∀ h1, c.curve_hash = Option.some h1 →
              ∀ tg, c.temp_group = Option.some tg →
              ∀ m ∈ membersOf w.doc tg, strHas m (toString h1) = true →
              ∀ o, w'.doc.getObject m = Option.some o →
                o.vobj.visibility = false) := by
        intro wIn hmm hdoc hsel
        cases hhid : hide_control_geometry wIn c with
        | none => simp only [hhid] at hmm; cases hmm
        | some w3 =>
          simp only [hhid, Option.some.injEq, Prod.mk.injEq] at hmm
          obtain ⟨hw3, hc3⟩ := hmm
          rw [hide_control_geometry.eq_def] at hhid
          cases hgc : get_control_geometry wIn c with
          | none => simp only [hgc] at hhid; cases hhid
          | some og =>
            cases og with
            | none => simp only [hgc] at hhid; cases hhid
            | some names =>
              simp only [hgc, Option.some.injEq] at hhid
              refine ⟨by rw [← hc3], ?_, ?_⟩
              · rw [← hw3, ← hhid]
                exact hsel
              · intro h1 hh1 tg htg m hm hs o hoo
                have hn1 : ¬ h1 = 0 := by
                  intro hz
                  exact hch0 (by rw [hh1, hz])
                simp only [get_control_geometry, hh1, htg] at hgc
                rw [if_neg hn1] at hgc
                cases hob : wIn.doc.getObject tg with
                | none => simp only [hob] at hgc; cases hgc
                | some tobj =>
                  simp only [hob, Option.some.injEq] at hgc
                  have hob' : w.doc.getObject tg = Option.some tobj := by
                    rw [← hdoc]
                    exact hob
                  have hmgrp : m ∈ tobj.group := by
                    have : membersOf w.doc tg = tobj.group := by
                      simp [membersOf, hob']
                    rw [← this]
                    exact hm
                  have hmN : m ∈ names := by
                    rw [← hgc]
                    exact List.mem_filter.2 ⟨hmgrp, hs⟩
                  rw [← hw3, ← hhid] at hoo
                  have hoo2 : (wIn.doc.setVisibilityAll names
                      false).getObject m = Option.some o := hoo
                  exact visibility_after_setAll wIn.doc names false m hmN
                    o hoo2
      refine key (if sel1 ≠ [] then { w with selection := [] }
          else { w with selection := sel1 }) h (by split <;> rfl) ?_
      split
      · rfl
      · rename_i hs2
        exact not_ne_iff.mp hs2
    · rw [if_neg hcht] at h
      have hcn : c.curve_hash = Option.none := by
        cases hcc : c.curve_hash with
        | none => rfl
        | some n =>
          rw [hcc] at hcht
          simp [pyTruthyIntOpt] at hcht
          exact absurd (by rw [hcc, hcht]) hch0
      simp only [Option.some.injEq, Prod.mk.injEq] at h
      obtain ⟨hw, hc⟩ := h
      subst hc
      refine ⟨by rw [hcn], ?_, ?_⟩
      · rw [← hw]
        split
        · rfl
        · rename_i hs
          exact not_ne_iff.mp hs
      · intro h1 hh1
        rw [hcn] at hh1
        cases hh1
  · intro hh hcheq hhne0 hdiff
    subst hcheq
    rw [location_resolved.eq_def] at h
    rw [if_pos (by simp [pyTruthyIntOpt, hhne0])] at h
    replace h : (if c.curve_hash ≠ Option.some hh then
        match show_control_geometry { w with selection := sel1 }
            { c with curve_hash := Option.some hh } with
        | Option.none => Option.none
        | Option.some w2 =>
          Option.some (w2, { c with curve_hash := Option.some hh })
      else Option.some ({ w with selection := sel1 }, c))
        = Option.some (w', c') := h
    rw [if_pos hdiff] at h
    cases hsh : show_control_geometry { w with selection := sel1 }
        { c with curve_hash := Option.some hh } with
    | none => simp only [hsh] at h; cases h
    | some w2 =>
      simp only [hsh, Option.some.injEq, Prod.mk.injEq] at h
      obtain ⟨hw2, hc1⟩ := h
      refine ⟨by rw [← hc1], ?_, ?_⟩
      · rw [← hw2, show_control_selection _ _ _ hsh]
      · intro cg hcg hne m hm o hoo
        rw [show_control_geometry.eq_def] at hsh
        simp only [hcg] at hsh
        rw [if_pos (by
            show pyTruthyListOpt (Option.some cg) = true
            cases cg with
            | nil => exact absurd rfl hne
            | cons a t => rfl)] at hsh
        simp only [Option.getD_some, Option.some.injEq] at hsh
        rw [← hw2, ← hsh] at hoo
        have hoo2 : (Doc.setVisibilityAll w.doc cg true).getObject m
            = Option.some o := hoo
        exact visibility_after_setAll w.doc cg true m hm o hoo2

end DraftCmdSrc

namespace DraftCmdSrc

open AlignmentSrc

/-- C6 amended at a concrete mouse move onto the two-edge curve of hash
`7`, whose control wire sits hidden in the temp group: every hypothesis of
the tracking theorem holds and its conclusion follows at this input. -/
theorem C6_curve_hash_tracking_witness :
    c6Cmd.alignment_draft = Option.some "D"
    ∧ c6Cmd.edges = Option.some [(7, ["Edge1", "Edge2"])]
    ∧ c6Cmd.curve_hash ≠ Option.some 0
    ∧ resolve_selection "D" [(7, ["Edge1", "Edge2"])] c6World.selection
        (Option.some ("D", "Edge1"))
        = (Option.some 7, [("D", ["Edge1", "Edge2"])])
    ∧ action c6World c6Cmd (SoEvent.location (Option.some ("D", "Edge1")))
        = Option.some (c6World1, c6Cmd1)
    ∧ (((Option.some (7 : Int) = Option.none
          ∨ Option.some (7 : Int) = Option.some 0) →
        c6Cmd1.curve_hash = Option.none
        ∧ c6World1.selection = []
        ∧ (∀ h1, c6Cmd.curve_hash = Option.some h1 →
            ∀ tg, c6Cmd.temp_group = Option.some tg →
            ∀ m ∈ membersOf c6World.doc tg, strHas m (toString h1) = true →
            ∀ o, c6World1.doc.getObject m = Option.some o →
              o.vobj.visibility = false))
      ∧ (∀ hh, Option.some (7 : Int) = Option.some hh → hh ≠ 0 →
          c6Cmd.curve_hash ≠ Option.some hh →
          c6Cmd1.curve_hash = Option.some hh
          ∧ c6World1.selection = [("D", ["Edge1", "Edge2"])]
          ∧ (∀ cg, get_control_geometry
                { c6World with selection := [("D", ["Edge1", "Edge2"])] }
                { c6Cmd with curve_hash := Option.some hh }
                = Option.some (Option.some cg) →
              cg ≠ [] → ∀ m ∈ cg, ∀ o,
                c6World1.doc.getObject m = Option.some o →
                o.vobj.visibility = true))) :=
  ⟨rfl, rfl, by decide, by decide, by decide,
   C6_curve_hash_tracking c6World c6Cmd "D" [(7, ["Edge1", "Edge2"])]
     "D" "Edge1" (Option.some 7) [("D", ["Edge1", "Edge2"])]
     c6World1 c6Cmd1 rfl rfl (by decide) (by decide) (by decide)⟩

end DraftCmdSrc
